import Mathlib

/-!
Verification of `generate_white_noise.py` (spectral noise synthesizer).

The Python source synthesizes a time-domain signal whose power spectrum follows
a piecewise-linear frequency-response curve:

* `get_signal` extends the `(freqs, responses)` control points to cover
  `[0, nyquist]` according to the `lb_type`/`ub_type` boundary policies,
  linearly interpolates them, samples the interpolant on a uniform grid of
  `duration*nyquist + 1` bins, attaches a random phase to every bin, mirrors
  the interior bins conjugated, and takes the real part of the inverse DFT.
* `generate_white_noise` resolves the `nyquist`/`sampling_rate` configuration,
  delegates to `get_signal`, rescales the signal so its largest absolute sample
  is 0.8, and hands the result to the wav writer.

The embedding below models the numeric computations in exact arithmetic:
rationals for the control-point/interpolation stage and real/complex numbers
for the spectral stage.  The stream of `np.random.uniform(0, 2*pi)` phase draws
is passed in explicitly as a function `phase : ℕ → ℝ`.  The wav-file side
effect is not modelled; `generate_white_noise` here returns the sample list
that the Python code hands to `scipy.io.wavfile.write`.
-/

/-- Error taxonomy of the spec (section 7).  The Python code raises bare
`Exception`s; the constructor used below is determined by the message:
`ConfigError` for the nyquist/sampling-rate consistency messages,
`DomainError` for the frequency-range messages, `InvalidPolicyError` for the
`lb_type`/`ub_type` messages. -/
inductive Err where
  | config : Err
  | domain : Err
  | invalidPolicy : Err
deriving DecidableEq, Repr

/-- Boundary-policy string accepted as `'flat'`. -/
def policyFlat : String := "flat"

/-- Boundary-policy string accepted as `'linear'`. -/
def policyLinear : String := "linear"

/-- Boundary-policy string accepted as `'zero'`. -/
def policyZero : String := "zero"

/-- Minimum of a list of rationals (`np.min` / built-in `min`); `0` on the
empty list, which the Python code never queries. -/
def listMin : List ℚ → ℚ
  | [] => 0
  | [x] => x
  | x :: y :: xs => min x (listMin (y :: xs))

/-- Maximum of a list of rationals (`np.max` / built-in `max`); `0` on the
empty list, which the Python code never queries. -/
def listMax : List ℚ → ℚ
  | [] => 0
  | [x] => x
  | x :: y :: xs => max x (listMax (y :: xs))

/-- Index of the first occurrence of the minimum (`np.argmin`). -/
def argmin : List ℚ → ℕ
  | [] => 0
  | [_] => 0
  | x :: y :: xs => if x ≤ listMin (y :: xs) then 0 else argmin (y :: xs) + 1

/-- Index of the first occurrence of the maximum (`np.argmax`). -/
def argmax : List ℚ → ℕ
  | [] => 0
  | [_] => 0
  | x :: y :: xs => if listMax (y :: xs) ≤ x then 0 else argmax (y :: xs) + 1

/-- Low-boundary extension step of `get_signal` (lines 43-58): validate that
the minimum frequency is nonnegative and, when it is strictly positive, append
the extra control point(s) dictated by `lb_type`. -/
def extendLow (freqs responses : List ℚ) (lb_type : String) (eps : ℚ) :
    Except Err (List ℚ × List ℚ) :=
  let i := argmin freqs
  let m := freqs.getD i 0
  if m < 0 then .error .domain
  else if 0 < m then
    if lb_type = policyFlat then .ok (freqs ++ [0], responses ++ [responses.getD i 0])
    else if lb_type = policyLinear then .ok (freqs ++ [0], responses ++ [0])
    else if lb_type = policyZero then
      .ok (freqs ++ [m - eps, 0], responses ++ [0, 0])
    else .error .invalidPolicy
  else .ok (freqs, responses)

/-- High-boundary extension step of `get_signal` (lines 60-75): validate that
the maximum (extended) frequency does not exceed `nyquist` and, when it is
strictly below `nyquist`, append the extra control point(s) dictated by
`ub_type`. -/
def extendHigh (freqs responses : List ℚ) (nyquist : ℚ) (ub_type : String) (eps : ℚ) :
    Except Err (List ℚ × List ℚ) :=
  let i := argmax freqs
  let m := freqs.getD i 0
  if nyquist < m then .error .domain
  else if m < nyquist then
    if ub_type = policyFlat then .ok (freqs ++ [nyquist], responses ++ [responses.getD i 0])
    else if ub_type = policyLinear then .ok (freqs ++ [nyquist], responses ++ [0])
    else if ub_type = policyZero then
      .ok (freqs ++ [m + eps, nyquist], responses ++ [0, 0])
    else .error .invalidPolicy
  else .ok (freqs, responses)

/-- Boundary Extender of the spec: the low-boundary step followed by the
high-boundary step, exactly as `get_signal` executes them (lines 40-75). -/
def extendPoints (freqs responses : List ℚ) (nyquist : ℚ)
    (lb_type ub_type : String) (eps : ℚ) : Except Err (List ℚ × List ℚ) :=
  match extendLow freqs responses lb_type eps with
  | .error e => .error e
  | .ok (f1, r1) => extendHigh f1 r1 nyquist ub_type eps

/-- Key order used to sort control points by frequency before interpolating
(`scipy.interpolate.interp1d` argsorts its `x` input). -/
def keyLE (a b : ℚ × ℚ) : Prop := a.1 ≤ b.1

instance : DecidableRel keyLE := fun a b => inferInstanceAs (Decidable (a.1 ≤ b.1))

instance : IsTotal (ℚ × ℚ) keyLE := ⟨fun a b => le_total a.1 b.1⟩

instance : IsTrans (ℚ × ℚ) keyLE := ⟨fun _ _ _ h h' => le_trans h h'⟩

/-- Control points sorted by frequency, modelling the argsort performed inside
`interp1d`.  (The comparison sort used is irrelevant for the distinct
frequencies the spec allows.) -/
def sortPoints (pts : List (ℚ × ℚ)) : List (ℚ × ℚ) := pts.insertionSort keyLE

/-- Piecewise-linear interpolation through knots sorted by frequency,
modelling `interp1d(..., 'linear')`.  Every query issued by `get_signal` lies
inside the knot range, so the out-of-range `ValueError` path of scipy is not
modelled. -/
def interpAt : List (ℚ × ℚ) → ℚ → ℚ
  | [], _ => 0
  | [(_, y1)], _ => y1
  | (x1, y1) :: (x2, y2) :: rest, x =>
    if x ≤ x2 then y1 + (y2 - y1) * (x - x1) / (x2 - x1)
    else interpAt ((x2, y2) :: rest) x

/-- Uniform grid `np.linspace(a, b, n)` of `n` points from `a` to `b`
inclusive. -/
def linspace (a b : ℚ) (n : ℕ) : List ℚ :=
  (List.range n).map (fun i => a + (b - a) * i / ((n : ℚ) - 1))

/-- Bin count `n_samples = duration * nyquist + 1` of line 81.  `np.linspace`
needs an integral count, and the claims only cover inputs with
`duration * nyquist` a positive integer, where the floor is exact. -/
def nSamples (duration nyquist : ℚ) : ℕ := ⌊duration * nyquist⌋₊ + 1

/-- Interpolated frequency response of `get_signal` at one frequency: the
composite of the Boundary Extender and the interpolant `freq_func`
(lines 40-78). -/
def responseAt (freqs responses : List ℚ) (nyquist : ℚ)
    (lb_type ub_type : String) (eps : ℚ) (x : ℚ) : Except Err ℚ :=
  match extendPoints freqs responses nyquist lb_type ub_type eps with
  | .error e => .error e
  | .ok (fe, re) => .ok (interpAt (sortPoints (fe.zip re)) x)

/-- Full symmetric spectrum of line 86: the `n` positive-frequency samples
followed by the conjugates of the interior bins `n-2, ..., 1` in reversed
order (`np.concatenate((z, np.conjugate(z[-2:0:-1])))`). -/
noncomputable def fullSpec (z : List ℂ) : List ℂ :=
  z ++ ((z.drop 1).dropLast.reverse.map (starRingEnd ℂ))

/-- Inverse discrete Fourier transform of `scipy.fftpack.ifft` evaluated at
time index `t`:  `(1/N) * sum_k S[k] * exp(2*pi*I*k*t/N)`. -/
noncomputable def idft (S : List ℂ) (t : ℕ) : ℂ :=
  ((S.length : ℂ))⁻¹ *
    ∑ k ∈ Finset.range S.length,
      S.getD k 0 * Complex.exp (((2 * Real.pi * k * t / S.length : ℝ) : ℂ) * Complex.I)

/-- Full symmetric spectrum `signal_z` built by `get_signal` (lines 80-86):
extended control points, sorted, linearly interpolated on the uniform grid,
each bin given magnitude `y k` and phase `phase k`, then conjugate-mirrored. -/
noncomputable def spectrumZ (freqs responses : List ℚ) (nyquist duration : ℚ)
    (lb_type ub_type : String) (eps : ℚ) (phase : ℕ → ℝ) : Except Err (List ℂ) :=
  match extendPoints freqs responses nyquist lb_type ub_type eps with
  | .error e => .error e
  | .ok (fe, re) =>
    let pts := sortPoints (fe.zip re)
    let n := nSamples duration nyquist
    let y := (linspace 0 nyquist n).map (interpAt pts)
    let z := (List.range n).map
      (fun k => ((y.getD k 0 : ℚ) : ℂ) * Complex.exp (((phase k : ℝ) : ℂ) * Complex.I))
    .ok (fullSpec z)

/-- Amplitude array returned by `get_signal` (lines 87-90): the real part of
the inverse DFT of the symmetric spectrum.  The companion `times` array and
the unused `sampling_rate` argument do not affect the samples; the argument is
kept only for signature fidelity. -/
noncomputable def get_signal (freqs responses : List ℚ) (nyquist _sampling_rate duration : ℚ)
    (lb_type ub_type : String) (eps : ℚ) (phase : ℕ → ℝ) : Except Err (List ℝ) :=
  match spectrumZ freqs responses nyquist duration lb_type ub_type eps phase with
  | .error e => .error e
  | .ok S => .ok ((List.range S.length).map (fun t => (idft S t).re))

/-- Largest absolute sample, `max(abs(signal))` of line 134.  The fold default
`0` is never the result on the nonempty signals the code produces, since all
`|x|` are nonnegative. -/
noncomputable def maxAbs (l : List ℝ) : ℝ := (l.map (fun x => |x|)).foldr max 0

/-- Amplitude normalization of line 134:
`0.8 * signal / max(abs(signal))`.  (The cast to 32-bit floats is precision
only and is not modelled.) -/
noncomputable def rescale (l : List ℝ) : List ℝ := l.map (fun s => 0.8 * s / maxAbs l)

/-- Python truthiness of an optional rational argument: `None` and `0` are
falsy, every other number is truthy.  This is exactly the test
`if not nyquist ...` performs on lines 119-128. -/
def truthyQ (o : Option ℚ) : Prop := o.getD 0 ≠ 0

instance (o : Option ℚ) : Decidable (truthyQ o) :=
  inferInstanceAs (Decidable (o.getD 0 ≠ 0))

/-- Top-level `generate_white_noise` (lines 93-135): resolve the
`nyquist`/`sampling_rate` configuration, run `get_signal`, and rescale.  The
returned list is the sample array handed to `scipy.io.wavfile.write`. -/
noncomputable def generate_white_noise (freqs responses : List ℚ) (nyquist sampling_rate : Option ℚ)
    (duration : ℚ) (lb_type ub_type : String) (eps : ℚ) (phase : ℕ → ℝ) :
    Except Err (List ℝ) :=
  if ¬ truthyQ nyquist ∧ ¬ truthyQ sampling_rate then .error .config
  else if truthyQ nyquist ∧ truthyQ sampling_rate then
    if nyquist.getD 0 ≠ sampling_rate.getD 0 / 2 then .error .config
    else
      match get_signal freqs responses (nyquist.getD 0) (sampling_rate.getD 0)
          duration lb_type ub_type eps phase with
      | .error e => .error e
      | .ok sig => .ok (rescale sig)
  else if truthyQ nyquist then
    if nyquist.getD 0 < listMax freqs then .error .domain
    else
      match get_signal freqs responses (nyquist.getD 0) (2 * nyquist.getD 0)
          duration lb_type ub_type eps phase with
      | .error e => .error e
      | .ok sig => .ok (rescale sig)
  else
    if sampling_rate.getD 0 / 2 < listMax freqs then .error .domain
    else
      match get_signal freqs responses (sampling_rate.getD 0 / 2) (sampling_rate.getD 0)
          duration lb_type ub_type eps phase with
      | .error e => .error e
      | .ok sig => .ok (rescale sig)

/-- Effective nyquist limit of a configuration, as the spec's claims use the
phrase: the supplied `nyquist` when truthy, else `sampling_rate / 2`. -/
def effNyquist (nyquist sampling_rate : Option ℚ) : ℚ :=
  if truthyQ nyquist then nyquist.getD 0 else sampling_rate.getD 0 / 2

/-- Policy string outside the accepted set, used to exercise the
invalid-policy paths. -/
def policyBogus : String := "bogus"

/-- All-zero phase draw, the simplest realisation of the random phase
stream. -/
def phaseZero : ℕ → ℝ := fun _ => 0

/-- Phase stream that draws `pi/2` for the first bin and `0` afterwards,
a realisation giving the 0 Hz bin a purely imaginary spectral sample. -/
noncomputable def phaseQuarter : ℕ → ℝ := fun k => if k = 0 then Real.pi / 2 else 0

/-! ## List minimum / maximum helper lemmas -/

theorem listMin_le {l : List ℚ} {x : ℚ} (hx : x ∈ l) : listMin l ≤ x := by
  induction l with
  | nil => cases hx
  | cons a t ih =>
    cases t with
    | nil => simp at hx; simp [listMin, hx]
    | cons b u =>
      rcases List.mem_cons.1 hx with rfl | hx'
      · simp [listMin]
      · exact le_trans (by simp [listMin]) (ih hx')

theorem le_listMax {l : List ℚ} {x : ℚ} (hx : x ∈ l) : x ≤ listMax l := by
  induction l with
  | nil => cases hx
  | cons a t ih =>
    cases t with
    | nil => simp at hx; simp [listMax, hx]
    | cons b u =>
      rcases List.mem_cons.1 hx with rfl | hx'
      · simp [listMax]
      · exact le_trans (ih hx') (by simp [listMax])

theorem listMin_mem {l : List ℚ} (h : l ≠ []) : listMin l ∈ l := by
  induction l with
  | nil => exact absurd rfl h
  | cons a t ih =>
    cases t with
    | nil => simp [listMin]
    | cons b u =>
      rcases le_total a (listMin (b :: u)) with hc | hc
      · simp [listMin, min_eq_left hc]
      · have := ih (by simp)
        simp only [listMin, min_eq_right hc]
        exact List.mem_cons_of_mem _ this

theorem listMax_mem {l : List ℚ} (h : l ≠ []) : listMax l ∈ l := by
  induction l with
  | nil => exact absurd rfl h
  | cons a t ih =>
    cases t with
    | nil => simp [listMax]
    | cons b u =>
      rcases le_total (listMax (b :: u)) a with hc | hc
      · simp [listMax, max_eq_left hc]
      · have := ih (by simp)
        simp only [listMax, max_eq_right hc]
        exact List.mem_cons_of_mem _ this

theorem argmin_lt_length {l : List ℚ} (h : l ≠ []) : argmin l < l.length := by
  induction l with
  | nil => exact absurd rfl h
  | cons a t ih =>
    cases t with
    | nil => simp [argmin]
    | cons b u =>
      by_cases hc : a ≤ listMin (b :: u)
      · simp [argmin, hc]
      · have := ih (by simp)
        simp only [List.length_cons] at this
        simp only [argmin, if_neg hc, List.length_cons]
        omega

theorem argmax_lt_length {l : List ℚ} (h : l ≠ []) : argmax l < l.length := by
  induction l with
  | nil => exact absurd rfl h
  | cons a t ih =>
    cases t with
    | nil => simp [argmax]
    | cons b u =>
      by_cases hc : listMax (b :: u) ≤ a
      · simp [argmax, hc]
      · have := ih (by simp)
        simp only [List.length_cons] at this
        simp only [argmax, if_neg hc, List.length_cons]
        omega

theorem getD_argmin {l : List ℚ} (h : l ≠ []) : l.getD (argmin l) 0 = listMin l := by
  induction l with
  | nil => exact absurd rfl h
  | cons a t ih =>
    cases t with
    | nil => simp [argmin, listMin]
    | cons b u =>
      by_cases hc : a ≤ listMin (b :: u)
      · simp [argmin, hc, listMin, min_eq_left hc]
      · have hle : listMin (b :: u) ≤ a := le_of_not_le hc
        simp only [argmin, if_neg hc, List.getD_cons_succ, listMin, min_eq_right hle]
        exact ih (by simp)

theorem getD_argmax {l : List ℚ} (h : l ≠ []) : l.getD (argmax l) 0 = listMax l := by
  induction l with
  | nil => exact absurd rfl h
  | cons a t ih =>
    cases t with
    | nil => simp [argmax, listMax]
    | cons b u =>
      by_cases hc : listMax (b :: u) ≤ a
      · simp [argmax, hc, listMax, max_eq_left hc]
      · have hle : a ≤ listMax (b :: u) := le_of_not_le hc
        simp only [argmax, if_neg hc, List.getD_cons_succ, listMax, max_eq_right hle]
        exact ih (by simp)

theorem listMin_lt_iff {l : List ℚ} {c : ℚ} (h : l ≠ []) :
    listMin l < c ↔ ∃ x ∈ l, x < c := by
  constructor
  · intro hlt
    exact ⟨listMin l, listMin_mem h, hlt⟩
  · rintro ⟨x, hx, hxc⟩
    exact lt_of_le_of_lt (listMin_le hx) hxc

theorem lt_listMax_iff {l : List ℚ} {c : ℚ} (h : l ≠ []) :
    c < listMax l ↔ ∃ x ∈ l, c < x := by
  constructor
  · intro hlt
    exact ⟨listMax l, listMax_mem h, hlt⟩
  · rintro ⟨x, hx, hxc⟩
    exact lt_of_lt_of_le hxc (le_listMax hx)

theorem listMax_append {l adds : List ℚ} (h : l ≠ [])
    (hadds : ∀ a ∈ adds, a ≤ listMax l) : listMax (l ++ adds) = listMax l := by
  have hne : l ++ adds ≠ [] := by
    intro hcontra
    exact h (List.append_eq_nil.1 hcontra).1
  apply le_antisymm
  · have hmem := listMax_mem hne
    rcases List.mem_append.1 hmem with hl | ha
    · exact le_listMax hl
    · exact hadds _ ha
  · exact le_listMax (List.mem_append_left _ (listMax_mem h))

/-! ## Boundary Extender characterization -/

theorem extendLow_neg {f r : List ℚ} {lb : String} {eps : ℚ} (hne : f ≠ [])
    (hmin : listMin f < 0) : extendLow f r lb eps = .error .domain := by
  simp only [extendLow, getD_argmin hne]
  rw [if_pos hmin]

theorem extendLow_flat {f r : List ℚ} {eps : ℚ} (hne : f ≠ [])
    (hmin : 0 < listMin f) :
    extendLow f r policyFlat eps = .ok (f ++ [0], r ++ [r.getD (argmin f) 0]) := by
  simp only [extendLow, getD_argmin hne]
  rw [if_neg (by linarith), if_pos hmin]
  simp

theorem extendLow_linear {f r : List ℚ} {eps : ℚ} (hne : f ≠ [])
    (hmin : 0 < listMin f) :
    extendLow f r policyLinear eps = .ok (f ++ [0], r ++ [0]) := by
  simp only [extendLow, getD_argmin hne]
  rw [if_neg (by linarith), if_pos hmin]
  simp [policyLinear, policyFlat]

theorem extendLow_zero {f r : List ℚ} {eps : ℚ} (hne : f ≠ [])
    (hmin : 0 < listMin f) :
    extendLow f r policyZero eps = .ok (f ++ [listMin f - eps, 0], r ++ [0, 0]) := by
  simp only [extendLow, getD_argmin hne]
  rw [if_neg (by linarith), if_pos hmin]
  simp [policyZero, policyFlat, policyLinear]

theorem extendLow_invalid {f r : List ℚ} {lb : String} {eps : ℚ} (hne : f ≠ [])
    (hmin : 0 < listMin f) (h1 : lb ≠ policyFlat) (h2 : lb ≠ policyLinear)
    (h3 : lb ≠ policyZero) : extendLow f r lb eps = .error .invalidPolicy := by
  simp only [extendLow, getD_argmin hne]
  rw [if_neg (by linarith), if_pos hmin, if_neg h1, if_neg h2, if_neg h3]

theorem extendLow_atZero {f r : List ℚ} {lb : String} {eps : ℚ} (hne : f ≠ [])
    (hmin : listMin f = 0) : extendLow f r lb eps = .ok (f, r) := by
  simp only [extendLow, getD_argmin hne, hmin]
  rw [if_neg (by norm_num), if_neg (by norm_num)]

theorem extendHigh_above {f r : List ℚ} {ny : ℚ} {ub : String} {eps : ℚ} (hne : f ≠ [])
    (hmax : ny < listMax f) : extendHigh f r ny ub eps = .error .domain := by
  simp only [extendHigh, getD_argmax hne]
  rw [if_pos hmax]

theorem extendHigh_flat {f r : List ℚ} {ny eps : ℚ} (hne : f ≠ [])
    (hmax : listMax f < ny) :
    extendHigh f r ny policyFlat eps = .ok (f ++ [ny], r ++ [r.getD (argmax f) 0]) := by
  simp only [extendHigh, getD_argmax hne]
  rw [if_neg (by linarith), if_pos hmax]
  simp

theorem extendHigh_linear {f r : List ℚ} {ny eps : ℚ} (hne : f ≠ [])
    (hmax : listMax f < ny) :
    extendHigh f r ny policyLinear eps = .ok (f ++ [ny], r ++ [0]) := by
  simp only [extendHigh, getD_argmax hne]
  rw [if_neg (by linarith), if_pos hmax]
  simp [policyLinear, policyFlat]

theorem extendHigh_zero {f r : List ℚ} {ny eps : ℚ} (hne : f ≠ [])
    (hmax : listMax f < ny) :
    extendHigh f r ny policyZero eps = .ok (f ++ [listMax f + eps, ny], r ++ [0, 0]) := by
  simp only [extendHigh, getD_argmax hne]
  rw [if_neg (by linarith), if_pos hmax]
  simp [policyZero, policyFlat, policyLinear]

theorem extendHigh_invalid {f r : List ℚ} {ny : ℚ} {ub : String} {eps : ℚ} (hne : f ≠ [])
    (hmax : listMax f < ny) (h1 : ub ≠ policyFlat) (h2 : ub ≠ policyLinear)
    (h3 : ub ≠ policyZero) : extendHigh f r ny ub eps = .error .invalidPolicy := by
  simp only [extendHigh, getD_argmax hne]
  rw [if_neg (by linarith), if_pos hmax, if_neg h1, if_neg h2, if_neg h3]

theorem extendHigh_atNyquist {f r : List ℚ} {ny : ℚ} {ub : String} {eps : ℚ} (hne : f ≠ [])
    (hmax : listMax f = ny) : extendHigh f r ny ub eps = .ok (f, r) := by
  simp only [extendHigh, getD_argmax hne, hmax]
  rw [if_neg (by norm_num), if_neg (by norm_num)]

/-! ## C6: extension points added by the Boundary Extender -/

/-- C6: when `min(freqs) > 0` the Boundary Extender appends exactly the
low-boundary points dictated by `lb_type` — Flat: `(0, response at the minimal
frequency)`; Linear: `(0, 0)`; Zero: `(min - eps, 0)` then `(0, 0)` — and
symmetrically for the high boundary when `max(freqs) < nyquist`; when
`min(freqs) = 0` (resp. `max(freqs) = nyquist`) nothing is appended on that
side and the control points are returned unchanged. -/
theorem c6_boundary_extension (f r : List ℚ) (ny eps : ℚ) (hne : f ≠ []) :
    (0 < listMin f →
      extendLow f r policyFlat eps = .ok (f ++ [0], r ++ [r.getD (argmin f) 0]) ∧
      extendLow f r policyLinear eps = .ok (f ++ [0], r ++ [0]) ∧
      extendLow f r policyZero eps = .ok (f ++ [listMin f - eps, 0], r ++ [0, 0])) ∧
    (listMin f = 0 → ∀ lb_type, extendLow f r lb_type eps = .ok (f, r)) ∧
    (listMax f < ny →
      extendHigh f r ny policyFlat eps = .ok (f ++ [ny], r ++ [r.getD (argmax f) 0]) ∧
      extendHigh f r ny policyLinear eps = .ok (f ++ [ny], r ++ [0]) ∧
      extendHigh f r ny policyZero eps = .ok (f ++ [listMax f + eps, ny], r ++ [0, 0])) ∧
    (listMax f = ny → ∀ ub_type, extendHigh f r ny ub_type eps = .ok (f, r)) :=
  ⟨fun h => ⟨extendLow_flat hne h, extendLow_linear hne h, extendLow_zero hne h⟩,
   fun h _ => extendLow_atZero hne h,
   fun h => ⟨extendHigh_flat hne h, extendHigh_linear hne h, extendHigh_zero hne h⟩,
   fun h _ => extendHigh_atNyquist hne h⟩

theorem c6_boundary_extension_witness :
    extendLow [(1 : ℚ), 2] [5, 7] policyFlat (1/2) = .ok ([1, 2, 0], [5, 7, 5]) ∧
    extendLow [(1 : ℚ), 2] [5, 7] policyZero (1/2) = .ok ([1, 2, 1/2, 0], [5, 7, 0, 0]) ∧
    extendHigh [(1 : ℚ), 2] [5, 7] 4 policyFlat (1/2) = .ok ([1, 2, 4], [5, 7, 7]) ∧
    extendLow [(0 : ℚ), 2] [5, 7] policyBogus (1/2) = .ok ([0, 2], [5, 7]) := by
  have h := c6_boundary_extension [(1 : ℚ), 2] [5, 7] 4 (1/2) (by simp)
  have hmin : (0 : ℚ) < listMin [(1 : ℚ), 2] := by norm_num [listMin]
  have hmax : listMax [(1 : ℚ), 2] < 4 := by norm_num [listMax]
  have h0 := c6_boundary_extension [(0 : ℚ), 2] [5, 7] 4 (1/2) (by simp)
  have hz : listMin [(0 : ℚ), 2] = 0 := by norm_num [listMin]
  refine ⟨?_, ?_, ?_, ?_⟩
  · have := (h.1 hmin).1
    simpa [argmin, listMin] using this
  · have := (h.1 hmin).2.2
    have h12 : (1 : ℚ) - 2⁻¹ = 2⁻¹ := by norm_num
    simpa [listMin, h12] using this
  · have := (h.2.2.1 hmax).1
    simpa [argmax, listMax] using this
  · exact (h0.2.1 hz) policyBogus

/-! ## Error propagation through the pipeline -/

theorem extendPoints_ok {f r f1 r1 : List ℚ} {ny : ℚ} {lb ub : String} {eps : ℚ}
    (hlow : extendLow f r lb eps = .ok (f1, r1)) :
    extendPoints f r ny lb ub eps = extendHigh f1 r1 ny ub eps := by
  simp [extendPoints, hlow]

theorem extendPoints_low_error {f r : List ℚ} {ny : ℚ} {lb ub : String} {eps : ℚ} {e : Err}
    (hlow : extendLow f r lb eps = .error e) :
    extendPoints f r ny lb ub eps = .error e := by
  simp [extendPoints, hlow]

theorem get_signal_eq_error_iff {f r : List ℚ} {ny sr dur : ℚ} {lb ub : String}
    {eps : ℚ} {ph : ℕ → ℝ} {e : Err} :
    get_signal f r ny sr dur lb ub eps ph = .error e ↔
      extendPoints f r ny lb ub eps = .error e := by
  unfold get_signal spectrumZ
  cases hE : extendPoints f r ny lb ub eps <;> simp

theorem extendLow_ne_config {f r : List ℚ} {lb : String} {eps : ℚ} :
    extendLow f r lb eps ≠ .error .config := by
  intro hc
  unfold extendLow at hc
  dsimp only at hc
  split_ifs at hc <;> simp at hc

theorem extendHigh_ne_config {f r : List ℚ} {ny : ℚ} {ub : String} {eps : ℚ} :
    extendHigh f r ny ub eps ≠ .error .config := by
  intro hc
  unfold extendHigh at hc
  dsimp only at hc
  split_ifs at hc <;> simp at hc

theorem extendPoints_ne_config {f r : List ℚ} {ny : ℚ} {lb ub : String} {eps : ℚ} :
    extendPoints f r ny lb ub eps ≠ .error .config := by
  unfold extendPoints
  cases hE : extendLow f r lb eps with
  | error e =>
    cases e with
    | config => exact absurd hE extendLow_ne_config
    | domain => simp
    | invalidPolicy => simp
  | ok p =>
    cases p with
    | mk f1 r1 => exact extendHigh_ne_config

/-- Shape of a successful low-boundary extension: the original lists followed
by equally many added frequencies/responses, every added frequency at most
`min(freqs)`. -/
theorem extendLow_shape {f r : List ℚ} {lb : String} {eps : ℚ} {f1 r1 : List ℚ}
    (hne : f ≠ []) (heps : 0 < eps)
    (h : extendLow f r lb eps = .ok (f1, r1)) :
    ∃ af ar : List ℚ, f1 = f ++ af ∧ r1 = r ++ ar ∧ af.length = ar.length ∧
      ∀ a ∈ af, a ≤ listMin f := by
  rcases lt_trichotomy (listMin f) 0 with hm | hm | hm
  · rw [extendLow_neg hne hm] at h
    cases h
  · rw [extendLow_atZero hne hm] at h
    injection h with h'
    injection h' with hf hr
    exact ⟨[], [], by simp [hf.symm], by simp [hr.symm], rfl, by simp⟩
  · by_cases hF : lb = policyFlat
    · subst hF
      rw [extendLow_flat hne hm] at h
      injection h with h'
      injection h' with hf hr
      exact ⟨[0], [r.getD (argmin f) 0], hf.symm, hr.symm, rfl, by
        intro a ha; simp at ha; subst ha; linarith⟩
    · by_cases hL : lb = policyLinear
      · subst hL
        rw [extendLow_linear hne hm] at h
        injection h with h'
        injection h' with hf hr
        exact ⟨[0], [0], hf.symm, hr.symm, rfl, by
          intro a ha; simp at ha; subst ha; linarith⟩
      · by_cases hZ : lb = policyZero
        · subst hZ
          rw [extendLow_zero hne hm] at h
          injection h with h'
          injection h' with hf hr
          refine ⟨[listMin f - eps, 0], [0, 0], hf.symm, hr.symm, rfl, ?_⟩
          intro a ha
          rcases List.mem_cons.1 ha with rfl | ha'
          · linarith
          · simp at ha'
            subst ha'
            linarith
        · rw [extendLow_invalid hne hm hF hL hZ] at h
          cases h

theorem listMin_le_listMax {l : List ℚ} (h : l ≠ []) : listMin l ≤ listMax l :=
  listMin_le (listMax_mem h)

/-- A successful low-boundary extension keeps the maximum frequency and the
nonemptiness of the frequency list. -/
theorem extendLow_max {f r f1 r1 : List ℚ} {lb : String} {eps : ℚ}
    (hne : f ≠ []) (heps : 0 < eps)
    (h : extendLow f r lb eps = .ok (f1, r1)) :
    listMax f1 = listMax f ∧ f1 ≠ [] := by
  obtain ⟨af, ar, hf, hr, hlen, hbd⟩ := extendLow_shape hne heps h
  subst hf
  refine ⟨listMax_append hne (fun a ha => le_trans (hbd a ha) (listMin_le_listMax hne)), ?_⟩
  intro hc
  exact hne (List.append_eq_nil.1 hc).1

/-! ## C2: invalid boundary-policy detection -/

/-- C2 (amended): an invalid `lb_type` is rejected with the invalid-policy
error only when `min(freqs) > 0` (the low boundary actually needs extension),
and an invalid `ub_type` only when `max(freqs) < nyquist` and the low-boundary
step passed; when the data already reaches a boundary, the corresponding
policy string is never inspected. -/
theorem c2_invalid_policy (f r : List ℚ) (ny sr dur eps : ℚ) (lb ub : String) (ph : ℕ → ℝ)
    (hne : f ≠ []) (hmin : 0 ≤ listMin f) (heps : 0 < eps) :
    (0 < listMin f → lb ≠ policyFlat → lb ≠ policyLinear → lb ≠ policyZero →
      get_signal f r ny sr dur lb ub eps ph = .error .invalidPolicy) ∧
    (listMax f < ny → ub ≠ policyFlat → ub ≠ policyLinear → ub ≠ policyZero →
      (listMin f = 0 ∨ lb = policyFlat ∨ lb = policyLinear ∨ lb = policyZero) →
      get_signal f r ny sr dur lb ub eps ph = .error .invalidPolicy) := by
  constructor
  · intro h0 hF hL hZ
    rw [get_signal_eq_error_iff]
    exact extendPoints_low_error (extendLow_invalid hne h0 hF hL hZ)
  · intro hlt hF hL hZ hlb
    rw [get_signal_eq_error_iff]
    have hlow : ∃ f1 r1, extendLow f r lb eps = .ok (f1, r1) := by
      rcases hlb with h0 | hE | hE | hE
      · exact ⟨f, r, extendLow_atZero hne h0⟩
      · subst hE
        rcases eq_or_lt_of_le hmin with h0 | h0
        · exact ⟨f, r, extendLow_atZero hne h0.symm⟩
        · exact ⟨_, _, extendLow_flat hne h0⟩
      · subst hE
        rcases eq_or_lt_of_le hmin with h0 | h0
        · exact ⟨f, r, extendLow_atZero hne h0.symm⟩
        · exact ⟨_, _, extendLow_linear hne h0⟩
      · subst hE
        rcases eq_or_lt_of_le hmin with h0 | h0
        · exact ⟨f, r, extendLow_atZero hne h0.symm⟩
        · exact ⟨_, _, extendLow_zero hne h0⟩
    obtain ⟨f1, r1, hlow⟩ := hlow
    rw [extendPoints_ok hlow]
    obtain ⟨hmax1, hne1⟩ := extendLow_max hne heps hlow
    exact extendHigh_invalid hne1 (by rw [hmax1]; exact hlt) hF hL hZ

theorem c2_invalid_policy_witness :
    get_signal [(1 : ℚ)] [1] 2 4 1 policyBogus policyLinear (1/1000) phaseZero
      = .error .invalidPolicy ∧
    get_signal [(1 : ℚ)] [1] 2 4 1 policyFlat policyBogus (1/1000) phaseZero
      = .error .invalidPolicy := by
  have hne : ([(1 : ℚ)] : List ℚ) ≠ [] := by simp
  have hmin : (0 : ℚ) ≤ listMin [(1 : ℚ)] := by norm_num [listMin]
  constructor
  · exact (c2_invalid_policy [(1 : ℚ)] [1] 2 4 1 (1/1000) policyBogus policyLinear
      phaseZero hne hmin (by norm_num)).1
      (by norm_num [listMin]) (by decide) (by decide) (by decide)
  · exact (c2_invalid_policy [(1 : ℚ)] [1] 2 4 1 (1/1000) policyFlat policyBogus
      phaseZero hne hmin (by norm_num)).2
      (by norm_num [listMax]) (by decide) (by decide) (by decide) (Or.inr (Or.inl rfl))

/-! ## Inverse DFT on two-bin spectra (used to evaluate concrete runs) -/

theorem idft_two (a b : ℂ) (t : ℕ) :
    idft [a, b] t = (2 : ℂ)⁻¹ * (a + b * Complex.exp (((Real.pi * t : ℝ) : ℂ) * Complex.I)) := by
  have h0 : (2 * Real.pi * ((0 : ℕ) : ℝ) * t / ((2 : ℕ) : ℝ) : ℝ) = 0 := by push_cast; ring
  have h1 : (2 * Real.pi * ((1 : ℕ) : ℝ) * t / ((2 : ℕ) : ℝ) : ℝ) = Real.pi * t := by
    push_cast; ring
  unfold idft
  rw [show ([a, b] : List ℂ).length = 2 from rfl]
  rw [Finset.sum_range_succ, Finset.sum_range_succ, Finset.sum_range_zero]
  rw [h0, h1]
  simp

theorem idft_two_zero (a b : ℂ) : idft [a, b] 0 = (2 : ℂ)⁻¹ * (a + b) := by
  rw [idft_two]
  norm_num

theorem idft_two_one (a b : ℂ) : idft [a, b] 1 = (2 : ℂ)⁻¹ * (a - b) := by
  rw [idft_two]
  rw [show ((Real.pi * (1 : ℕ) : ℝ) : ℂ) = (Real.pi : ℂ) by push_cast; ring]
  rw [Complex.exp_pi_mul_I]
  ring

/-- Concrete baseline run: one control point `(1, 1)`, `nyquist = 1`,
`duration = 1`, flat boundaries, zero phases.  The positive-frequency spectrum
is `[1, 1]` and nothing gets mirrored (`n = 2`). -/
theorem spectrumZ_base_eval :
    spectrumZ [(1 : ℚ)] [1] 1 1 policyFlat policyFlat (1/1000) phaseZero = .ok [1, 1] := by
  norm_num +decide [spectrumZ, extendPoints, extendLow, extendHigh, argmin, argmax, listMin,
    listMax, sortPoints, List.insertionSort, List.orderedInsert, keyLE, interpAt, linspace,
    nSamples, fullSpec, phaseZero, List.range_succ, policyFlat, policyLinear, policyZero]

theorem get_signal_base_eval :
    get_signal [(1 : ℚ)] [1] 1 2 1 policyFlat policyFlat (1/1000) phaseZero = .ok [1, 0] := by
  unfold get_signal
  rw [spectrumZ_base_eval]
  norm_num [List.range_succ, idft_two_zero, idft_two_one]

/-- C2 counterexample run: `min(freqs) = 0`, so the invalid low-boundary
policy string is never inspected and the synthesis completes. -/
theorem get_signal_bogus_eval :
    get_signal [(0 : ℚ)] [1] 1 2 1 policyBogus policyLinear (1/1000) phaseZero
      = .ok [1/2, 1/2] := by
  have hS : spectrumZ [(0 : ℚ)] [1] 1 1 policyBogus policyLinear (1/1000) phaseZero
      = .ok [1, 0] := by
    norm_num +decide [spectrumZ, extendPoints, extendLow, extendHigh, argmin, argmax, listMin,
      listMax, sortPoints, List.insertionSort, List.orderedInsert, keyLE, interpAt, linspace,
      nSamples, fullSpec, phaseZero, List.range_succ, policyFlat, policyLinear, policyZero,
      policyBogus]
  unfold get_signal
  rw [hS]
  norm_num [List.range_succ, idft_two_zero, idft_two_one]

/-- C2 counterexample: a call whose `lb_type` is not one of
`zero`/`flat`/`linear` nevertheless succeeds and produces a signal, because
`min(freqs) = 0` skips the low-boundary branch where the policy is checked. -/
theorem c2_invalid_policy_counterexample :
    get_signal [(0 : ℚ)] [1] 1 2 1 policyBogus policyLinear (1/1000) phaseZero
        = .ok [1/2, 1/2] ∧
      policyBogus ≠ policyZero ∧ policyBogus ≠ policyFlat ∧ policyBogus ≠ policyLinear :=
  ⟨get_signal_bogus_eval, by decide, by decide, by decide⟩

/-! ## Full-spectrum structure (C8) -/

theorem fullSpec_length (z : List ℂ) :
    (fullSpec z).length = z.length + (z.length - 1 - 1) := by
  simp [fullSpec]

theorem mirror_getD (z : List ℂ) {i : ℕ} (hi : i < z.length - 2) :
    ((z.drop 1).dropLast.reverse.map (starRingEnd ℂ)).getD i 0
      = (starRingEnd ℂ) (z.getD (z.length - 2 - i) 0) := by
  have hlenm : ((z.drop 1).dropLast.reverse.map (starRingEnd ℂ)).length = z.length - 2 := by
    simp only [List.length_map, List.length_reverse, List.length_dropLast, List.length_drop]
    omega
  have h1 : i < ((z.drop 1).dropLast.reverse.map (starRingEnd ℂ)).length := by
    rw [hlenm]; exact hi
  have h2 : z.length - 2 - i < z.length := by omega
  rw [List.getD_eq_getElem _ _ h1, List.getD_eq_getElem _ _ h2]
  simp only [List.getElem_map, List.getElem_reverse, List.getElem_dropLast, List.getElem_drop]
  congr 2
  simp only [List.length_dropLast, List.length_drop]
  omega

theorem fullSpec_getD_left (z : List ℂ) {j : ℕ} (hj : j < z.length) :
    (fullSpec z).getD j 0 = z.getD j 0 :=
  List.getD_append _ _ _ _ hj

/-- Interior mirror identity of the constructed spectrum: for
`1 ≤ k ≤ n - 2` the bin at `2n - 2 - k` is the conjugate of the bin at `k`. -/
theorem fullSpec_getD_mirror (z : List ℂ) {k : ℕ} (hk1 : 1 ≤ k)
    (hk2 : k ≤ z.length - 2) (hn : 2 ≤ z.length) :
    (fullSpec z).getD (2 * z.length - 2 - k) 0
      = (starRingEnd ℂ) ((fullSpec z).getD k 0) := by
  by_cases hkn : k = z.length - 2
  case neg =>
    have hklt : k < z.length - 2 := lt_of_le_of_ne hk2 hkn
    have hge : z.length ≤ 2 * z.length - 2 - k := by omega
    rw [fullSpec, List.getD_append_right _ _ _ _ hge]
    have hidx : 2 * z.length - 2 - k - z.length = z.length - 2 - k := by omega
    rw [hidx, mirror_getD z (by omega)]
    have : z.length - 2 - (z.length - 2 - k) = k := by omega
    rw [this]
    rw [List.getD_append _ _ _ _ (by omega)]
  case pos =>
    subst hkn
    have hidx : 2 * z.length - 2 - (z.length - 2) = z.length := by omega
    rw [hidx]
    rcases Nat.lt_or_ge (z.length - 2) 1 with hsmall | hbig
    · -- z.length = 2: index n - 2 = 0 is excluded by hk1
      omega
    · have hge : z.length ≤ z.length := le_refl _
      rw [fullSpec, List.getD_append_right _ _ _ _ hge, Nat.sub_self]
      rw [mirror_getD z (by omega)]
      have : z.length - 2 - 0 = z.length - 2 := by omega
      rw [this]
      rw [List.getD_append _ _ _ _ (by omega)]

/-- C8: the full spectrum has length `2n - 2`, begins with the `n`
positive-frequency samples, and every interior bin `1 ≤ k ≤ n - 2` satisfies
`S[2n - 2 - k] = conj S[k]`; the endpoint bins `0` and `n - 1` are not
mirrored. -/
theorem c8_full_spectrum (z : List ℂ) (hn : 2 ≤ z.length) :
    (fullSpec z).length = 2 * z.length - 2 ∧
    (fullSpec z).take z.length = z ∧
    ∀ k, 1 ≤ k → k ≤ z.length - 2 →
      (fullSpec z).getD (2 * z.length - 2 - k) 0
        = (starRingEnd ℂ) ((fullSpec z).getD k 0) := by
  refine ⟨?_, ?_, fun k hk1 hk2 => fullSpec_getD_mirror z hk1 hk2 hn⟩
  · rw [fullSpec_length]
    omega
  · exact List.take_left _ _

theorem c8_full_spectrum_witness :
    (fullSpec [Complex.I, 2 + Complex.I, 3]).length = 4 ∧
    (fullSpec [Complex.I, 2 + Complex.I, 3]).take 3 = [Complex.I, 2 + Complex.I, 3] ∧
    (fullSpec [Complex.I, 2 + Complex.I, 3]).getD 3 0
      = (starRingEnd ℂ) ((fullSpec [Complex.I, 2 + Complex.I, 3]).getD 1 0) := by
  have h := c8_full_spectrum [Complex.I, 2 + Complex.I, 3] (by norm_num)
  exact ⟨h.1, h.2.1, h.2.2 1 (by norm_num) (by norm_num)⟩

/-! ## C1: output length -/

/-- Successful `spectrumZ` runs produce the mirrored spectrum of the `n`-bin
positive-frequency sample list. -/
theorem spectrumZ_ok_shape {f r : List ℚ} {ny dur : ℚ} {lb ub : String} {eps : ℚ}
    {ph : ℕ → ℝ} {S : List ℂ}
    (h : spectrumZ f r ny dur lb ub eps ph = .ok S) :
    ∃ z : List ℂ, S = fullSpec z ∧ z.length = nSamples dur ny := by
  unfold spectrumZ at h
  cases hE : extendPoints f r ny lb ub eps with
  | error e => rw [hE] at h; cases h
  | ok p =>
    cases p with
    | mk fe re =>
      rw [hE] at h
      dsimp only at h
      injection h with h'
      exact ⟨_, h'.symm, by simp⟩

/-- C1: for `duration * nyquist` a positive integer `m` and
`nyquist = sampling_rate / 2`, the grid has `m + 1` bins and the signal
returned by `get_signal` has `2*(m+1) - 2 = duration * sampling_rate`
samples; `generate_white_noise` writes a rescaled signal of the same
length. -/
theorem c1_signal_length (f r : List ℚ) (ny sr dur eps : ℚ) (lb ub : String)
    (ph : ℕ → ℝ) (m : ℕ) (sig : List ℝ) (hm : 1 ≤ m) (hdn : dur * ny = (m : ℚ))
    (hsr : ny = sr / 2)
    (hok : get_signal f r ny sr dur lb ub eps ph = .ok sig) :
    nSamples dur ny = m + 1 ∧ sig.length = 2 * (m + 1) - 2 ∧
      (sig.length : ℚ) = dur * sr ∧
      ∀ out : List ℝ,
        generate_white_noise f r (some ny) (some sr) dur lb ub eps ph = .ok out →
          (out.length : ℚ) = dur * sr := by
  have hn : nSamples dur ny = m + 1 := by
    unfold nSamples
    rw [hdn, Nat.floor_natCast]
  have hlen : sig.length = 2 * (m + 1) - 2 := by
    unfold get_signal at hok
    cases hS : spectrumZ f r ny dur lb ub eps ph with
    | error e => rw [hS] at hok; cases hok
    | ok S =>
      rw [hS] at hok
      injection hok with h'
      obtain ⟨z, hz, hzl⟩ := spectrumZ_ok_shape hS
      rw [← h']
      simp only [List.length_map, List.length_range]
      rw [hz, fullSpec_length, hzl, hn]
      omega
  have hq : (sig.length : ℚ) = dur * sr := by
    have hl2 : sig.length = 2 * m := by rw [hlen]; omega
    rw [hl2]
    have hsr2 : sr = 2 * ny := by rw [hsr]; ring
    push_cast
    rw [hsr2, ← hdn]
    ring
  refine ⟨hn, hlen, hq, ?_⟩
  intro out hout
  have hnyT : truthyQ (some ny) := by
    intro hzero
    simp only [Option.getD_some] at hzero
    rw [hzero, mul_zero] at hdn
    have : (m : ℚ) ≠ 0 := Nat.cast_ne_zero.2 (by omega)
    exact this hdn.symm
  have hsrT : truthyQ (some sr) := by
    intro hzero
    simp only [Option.getD_some] at hzero
    rw [hzero] at hsr
    norm_num at hsr
    exact hnyT (by simpa [truthyQ] using hsr)
  unfold generate_white_noise at hout
  rw [if_neg (by simp [hnyT, hsrT]), if_pos ⟨hnyT, hsrT⟩] at hout
  rw [if_neg (by simpa using hsr)] at hout
  simp only [Option.getD_some] at hout
  rw [hok] at hout
  injection hout with h'
  rw [← h']
  unfold rescale
  rw [List.length_map]
  exact hq

theorem c1_signal_length_witness :
    nSamples 1 1 = 2 ∧ (([(1 : ℝ), 0] : List ℝ).length : ℚ) = 1 * 2 := by
  have h := c1_signal_length [(1 : ℚ)] [1] 1 2 1 (1/1000) policyFlat policyFlat phaseZero
    1 [(1 : ℝ), 0] (le_refl 1) (by norm_num) (by norm_num) get_signal_base_eval
  exact ⟨h.1, h.2.2.1⟩

/-! ## C9 / C10: amplitude normalization -/

theorem maxAbs_nonneg (l : List ℝ) : 0 ≤ maxAbs l := by
  induction l with
  | nil => simp [maxAbs]
  | cons a t ih =>
    simp only [maxAbs, List.map_cons, List.foldr_cons]
    exact le_trans ih (le_max_right _ _)

theorem le_maxAbs {l : List ℝ} {x : ℝ} (hx : x ∈ l) : |x| ≤ maxAbs l := by
  induction l with
  | nil => cases hx
  | cons a t ih =>
    simp only [maxAbs, List.map_cons, List.foldr_cons]
    rcases List.mem_cons.1 hx with rfl | hx'
    · exact le_max_left _ _
    · exact le_trans (ih hx') (le_max_right _ _)

theorem maxAbs_pos {l : List ℝ} (h : ∃ x ∈ l, x ≠ 0) : 0 < maxAbs l := by
  obtain ⟨x, hx, hx0⟩ := h
  exact lt_of_lt_of_le (abs_pos.2 hx0) (le_maxAbs hx)

theorem maxAbs_smul (l : List ℝ) (c : ℝ) (hc : 0 ≤ c) :
    maxAbs (l.map (fun s => c * s)) = c * maxAbs l := by
  induction l with
  | nil => simp [maxAbs]
  | cons a t ih =>
    simp only [maxAbs, List.map_cons, List.foldr_cons] at ih ⊢
    rw [abs_mul, abs_of_nonneg hc, ih, mul_max_of_nonneg _ _ hc]

theorem rescale_eq_smul (l : List ℝ) :
    rescale l = l.map (fun s => (0.8 / maxAbs l) * s) := by
  unfold rescale
  exact List.map_congr_left (fun s _ => by ring)

/-- C9: whenever the synthesized signal has a nonzero sample, the rescaled
signal written by `generate_white_noise` has maximal absolute sample exactly
`0.8`. -/
theorem c9_normalization (f r : List ℚ) (ny sr : Option ℚ) (dur eps : ℚ)
    (lb ub : String) (ph : ℕ → ℝ) (out : List ℝ)
    (hout : generate_white_noise f r ny sr dur lb ub eps ph = .ok out)
    (hnz : ∃ x ∈ out, x ≠ 0) : maxAbs out = 0.8 := by
  have hsig : ∃ sig : List ℝ, out = rescale sig := by
    unfold generate_white_noise at hout
    split_ifs at hout
    all_goals split at hout
    all_goals try cases hout
    all_goals exact ⟨_, rfl⟩
  obtain ⟨sig, rfl⟩ := hsig
  have hsnz : ∃ s ∈ sig, s ≠ 0 := by
    obtain ⟨x, hx, hx0⟩ := hnz
    unfold rescale at hx
    obtain ⟨s, hs, hsx⟩ := List.mem_map.1 hx
    refine ⟨s, hs, ?_⟩
    intro h0
    rw [h0] at hsx
    simp at hsx
    exact hx0 hsx.symm
  have hM : 0 < maxAbs sig := maxAbs_pos hsnz
  rw [rescale_eq_smul, maxAbs_smul _ _ (by positivity)]
  field_simp

theorem c9_normalization_witness :
    generate_white_noise [(1 : ℚ)] [1] (some 1) (some 2) 1 policyFlat policyFlat (1/1000)
        phaseZero = .ok [0.8, 0] ∧
      maxAbs [(0.8 : ℝ), 0] = 0.8 := by
  have hout : generate_white_noise [(1 : ℚ)] [1] (some 1) (some 2) 1 policyFlat policyFlat
      (1/1000) phaseZero = .ok [0.8, 0] := by
    unfold generate_white_noise
    rw [if_neg (by norm_num [truthyQ]), if_pos (by norm_num [truthyQ])]
    rw [if_neg (by norm_num)]
    simp only [Option.getD_some]
    rw [get_signal_base_eval]
    dsimp only
    have : rescale [(1 : ℝ), 0] = [0.8, 0] := by
      norm_num [rescale, maxAbs]
    rw [this]
  exact ⟨hout, c9_normalization [(1 : ℚ)] [1] (some 1) (some 2) 1 (1/1000) policyFlat
    policyFlat phaseZero [0.8, 0] hout ⟨0.8, by norm_num, by norm_num⟩⟩

/-- Concrete run producing an all-zero signal: the single response is `0`,
so every interpolated magnitude, every spectral sample, and every time-domain
sample is `0`. -/
theorem get_signal_zero_eval :
    get_signal [(1 : ℚ)] [0] 1 2 1 policyFlat policyFlat (1/1000) phaseZero = .ok [0, 0] := by
  have hS : spectrumZ [(1 : ℚ)] [0] 1 1 policyFlat policyFlat (1/1000) phaseZero
      = .ok [0, 0] := by
    norm_num +decide [spectrumZ, extendPoints, extendLow, extendHigh, argmin, argmax, listMin,
      listMax, sortPoints, List.insertionSort, List.orderedInsert, keyLE, interpAt, linspace,
      nSamples, fullSpec, phaseZero, List.range_succ, policyFlat, policyLinear, policyZero]
  unfold get_signal
  rw [hS]
  norm_num [List.range_succ, idft_two_zero, idft_two_one]

theorem maxAbs_of_all_zero {l : List ℝ} (hz : ∀ x ∈ l, x = 0) : maxAbs l = 0 := by
  refine le_antisymm ?_ (maxAbs_nonneg l)
  induction l with
  | nil => simp [maxAbs]
  | cons a t ih =>
    simp only [maxAbs, List.map_cons, List.foldr_cons]
    have ha : a = 0 := hz a (by simp)
    have ht : List.foldr max 0 (t.map fun x => |x|) ≤ 0 :=
      ih (fun x hx => hz x (List.mem_cons_of_mem _ hx))
    simp [ha, ht]

/-- C10: on an all-zero synthesized signal the normalization divisor
`max(abs(signal))` is `0`, so line 134 divides by zero; no error is raised —
`generate_white_noise` still hands the rescaled list to the writer — and the
`0.8` normalization invariant fails (in IEEE arithmetic the samples are NaN;
in this exact model the division by zero yields `0`). -/
theorem c10_zero_signal (sig : List ℝ) (hz : ∀ x ∈ sig, x = 0) :
    maxAbs sig = 0 ∧ (∀ y ∈ rescale sig, y = 0) ∧ maxAbs (rescale sig) ≠ 0.8 ∧
      ∀ (f r : List ℚ) (q dur eps : ℚ) (lb ub : String) (ph : ℕ → ℝ),
        q ≠ 0 → get_signal f r q (2 * q) dur lb ub eps ph = .ok sig →
          generate_white_noise f r (some q) (some (2 * q)) dur lb ub eps ph
            = .ok (rescale sig) := by
  have hM : maxAbs sig = 0 := maxAbs_of_all_zero hz
  have hzz : ∀ y ∈ rescale sig, y = 0 := by
    intro y hy
    unfold rescale at hy
    obtain ⟨s, hs, hsy⟩ := List.mem_map.1 hy
    rw [hz s hs] at hsy
    simp at hsy
    exact hsy.symm
  have hne : maxAbs (rescale sig) ≠ 0.8 := by
    rw [maxAbs_of_all_zero hzz]
    norm_num
  refine ⟨hM, hzz, hne, ?_⟩
  intro f r q dur eps lb ub ph hq hok
  unfold generate_white_noise
  rw [if_neg (by simp [truthyQ, hq]), if_pos (by constructor <;> simp [truthyQ, hq])]
  rw [if_neg (by rw [not_ne_iff]; simp only [Option.getD_some]; ring)]
  simp only [Option.getD_some]
  rw [hok]

theorem c10_zero_signal_witness :
    get_signal [(1 : ℚ)] [0] 1 2 1 policyFlat policyFlat (1/1000) phaseZero = .ok [0, 0] ∧
      maxAbs [(0 : ℝ), 0] = 0 ∧ maxAbs (rescale [(0 : ℝ), 0]) ≠ 0.8 ∧
      generate_white_noise [(1 : ℚ)] [0] (some 1) (some 2) 1 policyFlat policyFlat (1/1000)
        phaseZero = .ok (rescale [(0 : ℝ), 0]) := by
  have h := c10_zero_signal [(0 : ℝ), 0] (by
    intro x hx
    rcases List.mem_cons.1 hx with rfl | hx'
    · rfl
    · simpa using hx')
  refine ⟨get_signal_zero_eval, h.1, h.2.2.1, ?_⟩
  have := h.2.2.2 [(1 : ℚ)] [0] 1 1 (1/1000) policyFlat policyFlat phaseZero (by norm_num)
  have h2 : (2 : ℚ) * 1 = 2 := by norm_num
  rw [h2] at this
  exact this get_signal_zero_eval

/-! ## C4: nyquist / sampling_rate configuration -/

theorem get_signal_ne_config {f r : List ℚ} {ny sr dur : ℚ} {lb ub : String}
    {eps : ℚ} {ph : ℕ → ℝ} :
    get_signal f r ny sr dur lb ub eps ph ≠ .error .config := by
  intro hc
  exact extendPoints_ne_config (get_signal_eq_error_iff.1 hc)

/-- C4 (amended): `generate_white_noise` raises `ConfigError` exactly when
neither `nyquist` nor `sampling_rate` is supplied as a nonzero value, or both
are nonzero and `nyquist ≠ sampling_rate / 2`.  Python truthiness governs
"supplied": passing `0` behaves like passing `None`. -/
theorem c4_config_validation (f r : List ℚ) (ony osr : Option ℚ) (dur eps : ℚ)
    (lb ub : String) (ph : ℕ → ℝ) :
    generate_white_noise f r ony osr dur lb ub eps ph = .error .config ↔
      ((¬ truthyQ ony ∧ ¬ truthyQ osr) ∨
        (truthyQ ony ∧ truthyQ osr ∧ ony.getD 0 ≠ osr.getD 0 / 2)) := by
  unfold generate_white_noise
  split_ifs with h1 h2 h3 h4 h5 h6
  · exact iff_of_true rfl (Or.inl h1)
  · exact iff_of_true rfl (Or.inr ⟨h2.1, h2.2, h3⟩)
  · refine iff_of_false ?_ ?_
    · intro hc
      split at hc
      · injection hc with h'
        subst h'
        exact get_signal_ne_config (by assumption)
      · cases hc
    · rintro (⟨hnt, _⟩ | ⟨_, _, hne⟩)
      · exact hnt h2.1
      · exact h3 hne
  · refine iff_of_false (by simp) ?_
    rintro (⟨hnt, _⟩ | ⟨ht, hs, _⟩)
    · exact hnt h4
    · exact h2 ⟨ht, hs⟩
  · refine iff_of_false ?_ ?_
    · intro hc
      split at hc
      · injection hc with h'
        subst h'
        exact get_signal_ne_config (by assumption)
      · cases hc
    · rintro (⟨hnt, _⟩ | ⟨ht, hs, _⟩)
      · exact hnt h4
      · exact h2 ⟨ht, hs⟩
  · refine iff_of_false (by simp) ?_
    rintro (⟨_, hns⟩ | ⟨ht, _, _⟩)
    · exact absurd (fun h => (h1 ⟨h4, h⟩ : False)) (by tauto)
    · exact h4 ht
  · refine iff_of_false ?_ ?_
    · intro hc
      split at hc
      · injection hc with h'
        subst h'
        exact get_signal_ne_config (by assumption)
      · cases hc
    · rintro (⟨_, hns⟩ | ⟨ht, _, _⟩)
      · exact absurd (fun h => (h1 ⟨h4, h⟩ : False)) (by tauto)
      · exact h4 ht

/-- C4 counterexample: `nyquist = 0` is supplied (the argument is not
`None`) together with no `sampling_rate`; the claim says the other rate is
derived and no `ConfigError` is raised, but the code's truthiness test
treats `0` as absent and raises `ConfigError`. -/
theorem c4_config_counterexample :
    (some (0 : ℚ)).isSome = true ∧ (none : Option ℚ).isSome = false ∧
      generate_white_noise [(1 : ℚ)] [1] (some 0) none 1 policyFlat policyFlat (1/1000)
        phaseZero = .error .config := by
  refine ⟨rfl, rfl, ?_⟩
  unfold generate_white_noise
  rw [if_pos]
  constructor <;> simp [truthyQ]

/-! ## C5: domain validation -/

theorem extendLow_error_domain_iff {f r : List ℚ} {lb : String} {eps : ℚ} (hne : f ≠ []) :
    extendLow f r lb eps = .error .domain ↔ listMin f < 0 := by
  constructor
  · intro h
    by_contra hcon
    push_neg at hcon
    rcases eq_or_lt_of_le hcon with h0 | h0
    · rw [extendLow_atZero hne h0.symm] at h
      cases h
    · by_cases hF : lb = policyFlat
      · subst hF; rw [extendLow_flat hne h0] at h; cases h
      · by_cases hL : lb = policyLinear
        · subst hL; rw [extendLow_linear hne h0] at h; cases h
        · by_cases hZ : lb = policyZero
          · subst hZ; rw [extendLow_zero hne h0] at h; cases h
          · rw [extendLow_invalid hne h0 hF hL hZ] at h
            simp at h
  · exact extendLow_neg hne

theorem extendHigh_error_domain_iff {f r : List ℚ} {ny : ℚ} {ub : String} {eps : ℚ}
    (hne : f ≠ []) :
    extendHigh f r ny ub eps = .error .domain ↔ ny < listMax f := by
  constructor
  · intro h
    by_contra hcon
    push_neg at hcon
    rcases eq_or_lt_of_le hcon with h0 | h0
    · rw [extendHigh_atNyquist hne h0] at h
      cases h
    · by_cases hF : ub = policyFlat
      · subst hF; rw [extendHigh_flat hne h0] at h; cases h
      · by_cases hL : ub = policyLinear
        · subst hL; rw [extendHigh_linear hne h0] at h; cases h
        · by_cases hZ : ub = policyZero
          · subst hZ; rw [extendHigh_zero hne h0] at h; cases h
          · rw [extendHigh_invalid hne h0 hF hL hZ] at h
            simp at h
  · exact extendHigh_above hne

theorem get_signal_domain_neg {f r : List ℚ} {ny sr dur eps : ℚ} {lb ub : String}
    {ph : ℕ → ℝ} (hne : f ≠ []) (hneg : ∃ x ∈ f, x < 0) :
    get_signal f r ny sr dur lb ub eps ph = .error .domain := by
  rw [get_signal_eq_error_iff]
  exact extendPoints_low_error (extendLow_neg hne ((listMin_lt_iff hne).2 hneg))

theorem get_signal_domain_exceed {f r : List ℚ} {ny sr dur eps : ℚ} {lb ub : String}
    {ph : ℕ → ℝ} (hne : f ≠ []) (heps : 0 < eps) (hex : ∃ x ∈ f, ny < x)
    (hguard : 0 < listMin f → lb = policyFlat ∨ lb = policyLinear ∨ lb = policyZero) :
    get_signal f r ny sr dur lb ub eps ph = .error .domain := by
  rw [get_signal_eq_error_iff]
  have hmax : ny < listMax f := (lt_listMax_iff hne).2 hex
  rcases lt_trichotomy (listMin f) 0 with hm | hm | hm
  · exact extendPoints_low_error (extendLow_neg hne hm)
  · rw [extendPoints_ok (extendLow_atZero hne hm)]
    exact extendHigh_above hne hmax
  · have step : ∀ f1 r1 : List ℚ, extendLow f r lb eps = .ok (f1, r1) →
        extendPoints f r ny lb ub eps = .error .domain := by
      intro f1 r1 hlow
      rw [extendPoints_ok hlow]
      obtain ⟨af, ar, hf, hr, -, hbd⟩ := extendLow_shape hne heps hlow
      subst hf
      have hf1ne : f ++ af ≠ [] := fun hcon => hne (List.append_eq_nil.1 hcon).1
      have hle : listMax f ≤ listMax (f ++ af) :=
        le_listMax (List.mem_append_left _ (listMax_mem hne))
      exact extendHigh_above hf1ne (lt_of_lt_of_le hmax hle)
    rcases hguard hm with hF | hL | hZ
    · subst hF; exact step _ _ (extendLow_flat hne hm)
    · subst hL; exact step _ _ (extendLow_linear hne hm)
    · subst hZ; exact step _ _ (extendLow_zero hne hm)

theorem get_signal_no_domain {f r : List ℚ} {ny sr dur eps : ℚ} {lb ub : String}
    {ph : ℕ → ℝ} (hne : f ≠ []) (heps : 0 < eps)
    (hrange : ∀ x ∈ f, 0 ≤ x ∧ x ≤ ny) :
    get_signal f r ny sr dur lb ub eps ph ≠ .error .domain := by
  intro hc
  rw [get_signal_eq_error_iff] at hc
  unfold extendPoints at hc
  cases hE : extendLow f r lb eps with
  | error e =>
    rw [hE] at hc
    injection hc with h'
    subst h'
    have hlt := (extendLow_error_domain_iff hne).1 hE
    have h0 : 0 ≤ listMin f := (hrange _ (listMin_mem hne)).1
    linarith
  | ok p =>
    obtain ⟨f1, r1⟩ := p
    rw [hE] at hc
    obtain ⟨af, ar, hf, hr, -, hbd⟩ := extendLow_shape hne heps hE
    subst hf
    have hf1ne : f ++ af ≠ [] := fun hcon => hne (List.append_eq_nil.1 hcon).1
    have hmax1 : listMax (f ++ af) = listMax f :=
      listMax_append hne (fun a ha => le_trans (hbd a ha) (listMin_le_listMax hne))
    have hlt := (extendHigh_error_domain_iff hf1ne).1 hc
    rw [hmax1] at hlt
    have hub : listMax f ≤ ny := (hrange _ (listMax_mem hne)).2
    linarith

theorem listMax_le {l : List ℚ} {c : ℚ} (hne : l ≠ []) (h : ∀ x ∈ l, x ≤ c) :
    listMax l ≤ c := h _ (listMax_mem hne)

/-- C5 (amended): once the rate configuration is accepted, a negative
frequency always produces the domain error; a frequency above the effective
nyquist produces the domain error on the single-rate paths (where line
126/130 checks it before `get_signal`), and on the both-rates path provided
the low-boundary policy check does not fire first; inputs with all
frequencies inside `[0, effective nyquist]` (and `eps > 0`) never produce a
domain error. -/
theorem c5_domain_validation (f r : List ℚ) (q s dur eps : ℚ) (lb ub : String)
    (ph : ℕ → ℝ) (hne : f ≠ []) (heps : 0 < eps) :
    (q ≠ 0 → s ≠ 0 → q = s / 2 → (∃ x ∈ f, x < 0) →
      generate_white_noise f r (some q) (some s) dur lb ub eps ph = .error .domain) ∧
    (q ≠ 0 → s ≠ 0 → q = s / 2 → (∃ x ∈ f, q < x) →
      (0 < listMin f → lb = policyFlat ∨ lb = policyLinear ∨ lb = policyZero) →
      generate_white_noise f r (some q) (some s) dur lb ub eps ph = .error .domain) ∧
    (q ≠ 0 → (∃ x ∈ f, q < x) →
      generate_white_noise f r (some q) none dur lb ub eps ph = .error .domain) ∧
    (s ≠ 0 → (∃ x ∈ f, s / 2 < x) →
      generate_white_noise f r none (some s) dur lb ub eps ph = .error .domain) ∧
    (q ≠ 0 → (∃ x ∈ f, x < 0) →
      generate_white_noise f r (some q) none dur lb ub eps ph = .error .domain) ∧
    (s ≠ 0 → (∃ x ∈ f, x < 0) →
      generate_white_noise f r none (some s) dur lb ub eps ph = .error .domain) ∧
    (∀ ony osr : Option ℚ, (∀ x ∈ f, 0 ≤ x ∧ x ≤ effNyquist ony osr) →
      generate_white_noise f r ony osr dur lb ub eps ph ≠ .error .domain) := by
  refine ⟨?_, ?_, ?_, ?_, ?_, ?_, ?_⟩
  · intro hq hs hqs hneg
    unfold generate_white_noise
    rw [if_neg (by simp [truthyQ, hq]), if_pos (by constructor <;> simp [truthyQ, hq, hs])]
    rw [if_neg (by simpa using hqs)]
    simp only [Option.getD_some]
    rw [get_signal_domain_neg hne hneg]
  · intro hq hs hqs hex hguard
    unfold generate_white_noise
    rw [if_neg (by simp [truthyQ, hq]), if_pos (by constructor <;> simp [truthyQ, hq, hs])]
    rw [if_neg (by simpa using hqs)]
    simp only [Option.getD_some]
    rw [get_signal_domain_exceed hne heps hex hguard]
  · intro hq hex
    unfold generate_white_noise
    rw [if_neg (by simp [truthyQ, hq]), if_neg (by simp [truthyQ])]
    rw [if_pos (by simp [truthyQ, hq])]
    simp only [Option.getD_some]
    rw [if_pos ((lt_listMax_iff hne).2 hex)]
  · intro hs hex
    unfold generate_white_noise
    rw [if_neg (by simp [truthyQ, hs]), if_neg (by simp [truthyQ])]
    rw [if_neg (by simp [truthyQ])]
    simp only [Option.getD_some]
    rw [if_pos ((lt_listMax_iff hne).2 hex)]
  · intro hq hneg
    unfold generate_white_noise
    rw [if_neg (by simp [truthyQ, hq]), if_neg (by simp [truthyQ])]
    rw [if_pos (by simp [truthyQ, hq])]
    simp only [Option.getD_some]
    by_cases hql : q < listMax f
    · rw [if_pos hql]
    · rw [if_neg hql, get_signal_domain_neg hne hneg]
  · intro hs hneg
    unfold generate_white_noise
    rw [if_neg (by simp [truthyQ, hs]), if_neg (by simp [truthyQ])]
    rw [if_neg (by simp [truthyQ])]
    simp only [Option.getD_some]
    by_cases hql : s / 2 < listMax f
    · rw [if_pos hql]
    · rw [if_neg hql, get_signal_domain_neg hne hneg]
  · intro ony osr hrange hc
    by_cases hT1 : truthyQ ony
    · have heff : effNyquist ony osr = ony.getD 0 := by simp [effNyquist, hT1]
      rw [heff] at hrange
      by_cases hT2 : truthyQ osr
      · unfold generate_white_noise at hc
        rw [if_neg (by simp [hT1, hT2]), if_pos ⟨hT1, hT2⟩] at hc
        split_ifs at hc with hcons
        · cases hc
        · split at hc
          · injection hc with h'
            subst h'
            exact get_signal_no_domain hne heps hrange (by assumption)
          · cases hc
      · unfold generate_white_noise at hc
        rw [if_neg (by simp [hT1, hT2]), if_neg (by simp [hT2]), if_pos hT1] at hc
        split_ifs at hc with hlt
        · exact absurd hlt (not_lt.2 (listMax_le hne (fun x hx => (hrange x hx).2)))
        · split at hc
          · injection hc with h'
            subst h'
            exact get_signal_no_domain hne heps hrange (by assumption)
          · cases hc
    · by_cases hT2 : truthyQ osr
      · have heff : effNyquist ony osr = osr.getD 0 / 2 := by simp [effNyquist, hT1]
        rw [heff] at hrange
        unfold generate_white_noise at hc
        rw [if_neg (by simp [hT2]), if_neg (by simp [hT1]), if_neg hT1] at hc
        split_ifs at hc with hlt
        · exact absurd hlt (not_lt.2 (listMax_le hne (fun x hx => (hrange x hx).2)))
        · split at hc
          · injection hc with h'
            subst h'
            exact get_signal_no_domain hne heps hrange (by assumption)
          · cases hc
      · unfold generate_white_noise at hc
        rw [if_pos ⟨hT1, hT2⟩] at hc
        cases hc

theorem c5_domain_validation_witness :
    generate_white_noise [(5 : ℚ)] [1] (some 3) none 1 policyFlat policyFlat (1/1000)
        phaseZero = .error .domain ∧
      generate_white_noise [(-1 : ℚ)] [1] (some 3) (some 6) 1 policyFlat policyFlat (1/1000)
        phaseZero = .error .domain ∧
      generate_white_noise [(1 : ℚ)] [1] (some 3) (some 6) 1 policyFlat policyFlat (1/1000)
        phaseZero ≠ .error .domain := by
  have h5 := c5_domain_validation [(5 : ℚ)] [1] 3 6 1 (1/1000) policyFlat policyFlat phaseZero
    (by simp) (by norm_num)
  have hm := c5_domain_validation [(-1 : ℚ)] [1] 3 6 1 (1/1000) policyFlat policyFlat phaseZero
    (by simp) (by norm_num)
  have h1 := c5_domain_validation [(1 : ℚ)] [1] 3 6 1 (1/1000) policyFlat policyFlat phaseZero
    (by simp) (by norm_num)
  refine ⟨?_, ?_, ?_⟩
  · exact h5.2.2.1 (by norm_num) ⟨5, by simp, by norm_num⟩
  · exact hm.1 (by norm_num) (by norm_num) (by norm_num) ⟨-1, by simp, by norm_num⟩
  · exact h1.2.2.2.2.2.2 (some 3) (some 6)
      (by
        intro x hx
        simp at hx
        subst hx
        constructor <;> norm_num [effNyquist, truthyQ])

/-- C5 counterexample: with both rates supplied consistently, a frequency
above nyquist together with an invalid `lb_type` fails with the
invalid-policy error, not the domain error the claim promises. -/
theorem c5_domain_counterexample :
    ((5 : ℚ) ∈ [(5 : ℚ)] ∧ (3 : ℚ) < 5) ∧
      generate_white_noise [(5 : ℚ)] [1] (some 3) (some 6) 1 policyBogus policyLinear (1/1000)
        phaseZero = .error .invalidPolicy ∧
      Err.invalidPolicy ≠ Err.domain := by
  refine ⟨⟨by simp, by norm_num⟩, ?_, by simp⟩
  unfold generate_white_noise
  rw [if_neg (by simp [truthyQ]), if_pos (by constructor <;> simp [truthyQ])]
  rw [if_neg (by norm_num)]
  simp only [Option.getD_some]
  have hg : get_signal [(5 : ℚ)] [1] 3 6 1 policyBogus policyLinear (1/1000) phaseZero
      = .error .invalidPolicy := by
    rw [get_signal_eq_error_iff]
    exact extendPoints_low_error (extendLow_invalid (by simp) (by norm_num [listMin])
      (by decide) (by decide) (by decide))
  rw [hg]

/-! ## C3: realness of the inverse transform -/

theorem conj_exp_ofReal_mul_I (x : ℝ) :
    (starRingEnd ℂ) (Complex.exp ((x : ℂ) * Complex.I)) = Complex.exp (((-x : ℝ) : ℂ) * Complex.I) := by
  rw [← Complex.exp_conj]
  congr 1
  simp [Complex.conj_ofReal]

theorem exp_two_pi_nat_shift (x : ℝ) (t : ℕ) :
    Complex.exp (((2 * Real.pi * t - x : ℝ) : ℂ) * Complex.I)
      = Complex.exp (((-x : ℝ) : ℂ) * Complex.I) := by
  have hsplit : (((2 * Real.pi * t - x : ℝ) : ℂ) * Complex.I)
      = ((t : ℂ) * (2 * (Real.pi : ℂ) * Complex.I)) + (((-x : ℝ) : ℂ) * Complex.I) := by
    push_cast
    ring
  rw [hsplit, Complex.exp_add, Complex.exp_nat_mul_two_pi_mul_I, one_mul]

/-- Hermitian symmetry of the full spectrum on all nonzero bins, given real
endpoint bins. -/
theorem fullSpec_herm (z : List ℂ) (h2 : 2 ≤ z.length)
    (hN : (z.getD (z.length - 1) 0).im = 0) :
    ∀ j, 1 ≤ j → j ≤ 2 * z.length - 2 - 1 →
      (fullSpec z).getD (2 * z.length - 2 - j) 0
        = (starRingEnd ℂ) ((fullSpec z).getD j 0) := by
  intro j hj1 hj2
  rcases le_or_lt j (z.length - 2) with hcase | hcase
  · exact fullSpec_getD_mirror z hj1 hcase h2
  · rcases eq_or_lt_of_le (Nat.succ_le_of_lt hcase) with hmid | hhigh
    · -- j = z.length - 1 (the nyquist bin)
      have hj : j = z.length - 1 := by omega
      subst hj
      have hidx : 2 * z.length - 2 - (z.length - 1) = z.length - 1 := by omega
      rw [hidx, fullSpec_getD_left z (by omega)]
      exact ((Complex.conj_eq_iff_im).2 hN).symm
    · -- j ≥ z.length : mirror of the first case
      have hk1 : 1 ≤ 2 * z.length - 2 - j := by omega
      have hk2 : 2 * z.length - 2 - j ≤ z.length - 2 := by omega
      have := fullSpec_getD_mirror z hk1 hk2 h2
      have hidx : 2 * z.length - 2 - (2 * z.length - 2 - j) = j := by omega
      rw [hidx] at this
      rw [this]
      simp

/-- Inverse DFT of the constructed spectrum is exactly real when the 0 Hz and
nyquist bins are real. -/
theorem fullSpec_idft_real (z : List ℂ) (h2 : 2 ≤ z.length)
    (h0 : (z.getD 0 0).im = 0) (hNy : (z.getD (z.length - 1) 0).im = 0) (t : ℕ) :
    (idft (fullSpec z) t).im = 0 := by
  have hlen : (fullSpec z).length = 2 * z.length - 2 := by
    rw [fullSpec_length]; omega
  set N := 2 * z.length - 2 with hNdef
  have hNpos : 0 < N := by omega
  have hherm := fullSpec_herm z h2 hNy
  set F : ℕ → ℝ := fun k =>
    ((fullSpec z).getD k 0 *
      Complex.exp (((2 * Real.pi * k * t / N : ℝ) : ℂ) * Complex.I)).im with hF
  have hF0 : F 0 = 0 := by
    rw [hF]
    simp only []
    rw [show ((2 * Real.pi * (0 : ℕ) * t / N : ℝ)) = 0 by push_cast; ring]
    rw [fullSpec_getD_left z (by omega)]
    simp only [Complex.ofReal_zero, zero_mul, Complex.exp_zero, mul_one]
    exact h0
  have key : ∀ a, a ∈ Finset.range N → 1 ≤ a →
      (fullSpec z).getD (N - a) 0 *
          Complex.exp (((2 * Real.pi * (N - a : ℕ) * t / N : ℝ) : ℂ) * Complex.I)
        = (starRingEnd ℂ) ((fullSpec z).getD a 0 *
            Complex.exp (((2 * Real.pi * a * t / N : ℝ) : ℂ) * Complex.I)) := by
    intro a ha ha1
    have haN : a < N := Finset.mem_range.1 ha
    rw [map_mul]
    congr 1
    · exact hherm a ha1 (by omega)
    · have hsub : ((N - a : ℕ) : ℝ) = (N : ℝ) - (a : ℝ) := by
        push_cast [Nat.cast_sub (le_of_lt haN)]
        ring
      have hexp : (2 * Real.pi * ((N - a : ℕ) : ℝ) * t / N : ℝ)
          = 2 * Real.pi * t - 2 * Real.pi * a * t / N := by
        rw [hsub]
        field_simp
        ring
      rw [hexp, exp_two_pi_nat_shift, ← conj_exp_ofReal_mul_I]
  unfold idft
  rw [hlen]
  have him : ∀ (c : ℝ) (w : ℂ), ((c : ℂ) * w).im = c * w.im := fun c w => by
    simp [Complex.mul_im]
  rw [show ((N : ℂ))⁻¹ = (((N : ℝ)⁻¹ : ℝ) : ℂ) by
    rw [Complex.ofReal_inv, Complex.ofReal_natCast], him, Complex.im_sum]
  rw [show (∑ k ∈ Finset.range N, F k) = 0 from ?_, mul_zero]
  refine Finset.sum_involution (fun a _ => (N - a) % N) ?_ ?_ ?_ ?_
  · -- F a + F ((N - a) % N) = 0
    intro a ha
    show F a + F ((N - a) % N) = 0
    rcases Nat.eq_zero_or_pos a with rfl | ha1
    · rw [Nat.sub_zero, Nat.mod_self]
      rw [hF0]
      norm_num
    · have haN : a < N := Finset.mem_range.1 ha
      have hmod : (N - a) % N = N - a := Nat.mod_eq_of_lt (by omega)
      rw [hmod, hF]
      simp only []
      rw [key a ha ha1, Complex.conj_im]
      ring
  · -- F a ≠ 0 → involution has no fixed point there
    intro a ha hFa
    show (N - a) % N ≠ a
    rcases Nat.eq_zero_or_pos a with rfl | ha1
    · exact absurd hF0 hFa
    · have haN : a < N := Finset.mem_range.1 ha
      have hmod : (N - a) % N = N - a := Nat.mod_eq_of_lt (by omega)
      rw [hmod]
      intro hfix
      have hmid : a = z.length - 1 := by omega
      apply hFa
      rw [hF]
      simp only []
      subst hmid
      have hexp : (2 * Real.pi * ((z.length - 1 : ℕ) : ℝ) * t / N : ℝ) = Real.pi * t := by
        have : ((z.length - 1 : ℕ) : ℝ) = (z.length : ℝ) - 1 := by
          push_cast [Nat.cast_sub (by omega : 1 ≤ z.length)]
          ring
        rw [this, hNdef]
        have hcast : ((2 * z.length - 2 : ℕ) : ℝ) = 2 * (z.length : ℝ) - 2 := by
          push_cast [Nat.cast_sub (by omega : 2 ≤ 2 * z.length)]
          ring
        rw [hcast]
        have hne2 : 2 * (z.length : ℝ) - 2 ≠ 0 := by
          have : (2 : ℝ) ≤ (z.length : ℝ) := by exact_mod_cast h2
          linarith
        rw [div_eq_iff hne2]
        ring
      rw [hexp]
      rw [show ((Real.pi * t : ℝ) : ℂ) * Complex.I = (t : ℂ) * ((Real.pi : ℂ) * Complex.I) by
        push_cast; ring]
      rw [Complex.exp_nat_mul, Complex.exp_pi_mul_I]
      rw [fullSpec_getD_left z (by omega)]
      rw [show ((-1 : ℂ)) ^ t = (((-1 : ℝ) ^ t : ℝ) : ℂ) by push_cast; ring]
      rw [Complex.mul_im]
      simp only [Complex.ofReal_im, Complex.ofReal_re, hNy]
      ring
  · intro a ha
    exact Finset.mem_range.2 (Nat.mod_lt _ hNpos)
  · intro a ha
    show (N - (N - a) % N) % N = a
    rcases Nat.eq_zero_or_pos a with rfl | ha1
    · simp
    · have haN : a < N := Finset.mem_range.1 ha
      have hmod : (N - a) % N = N - a := Nat.mod_eq_of_lt (by omega)
      rw [hmod]
      rw [Nat.sub_sub_self (le_of_lt haN)]
      exact Nat.mod_eq_of_lt haN

/-- C3 (amended): the inverse DFT of the constructed symmetric spectrum is
exactly real provided the 0 Hz and nyquist bins are real (e.g. when the
interpolated response vanishes there, as under the default linear boundary
policies).  Without that proviso the endpoint bins carry random phase and are
not mirrored, so the claim fails — see the counterexample. -/
theorem c3_real_inverse (f r : List ℚ) (ny dur : ℚ) (lb ub : String) (eps : ℚ)
    (ph : ℕ → ℝ) (S : List ℂ)
    (hok : spectrumZ f r ny dur lb ub eps ph = .ok S)
    (hbins : 2 ≤ nSamples dur ny)
    (h0 : (S.getD 0 0).im = 0) (hNy : (S.getD (nSamples dur ny - 1) 0).im = 0) :
    ∀ t, (idft S t).im = 0 := by
  obtain ⟨z, rfl, hzl⟩ := spectrumZ_ok_shape hok
  intro t
  have h2 : 2 ≤ z.length := by rw [hzl]; exact hbins
  apply fullSpec_idft_real z h2
  · rw [← fullSpec_getD_left z (by omega)]
    exact h0
  · rw [← fullSpec_getD_left z (by omega), hzl]
    exact hNy

theorem c3_real_inverse_witness :
    (idft [(1 : ℂ), 1] 0).im = 0 := by
  have h := c3_real_inverse [(1 : ℚ)] [1] 1 1 policyFlat policyFlat (1/1000) phaseZero
    [(1 : ℂ), 1] spectrumZ_base_eval (by norm_num [nSamples]) (by simp) ?h0
  · exact h 0
  case h0 =>
    rw [show nSamples 1 1 = 2 from by norm_num [nSamples]]
    simp

/-- C3 counterexample: with flat boundary policies and a `pi/2` phase on the
0 Hz bin, the constructed symmetric spectrum is `[i, 1]` and the inverse DFT
at `t = 0` is `(i + 1)/2`, whose imaginary part `1/2` is genuine signal, not
a numerical artifact; the IDFT of the constructed spectrum is not real. -/
theorem c3_real_inverse_counterexample :
    spectrumZ [(1 : ℚ)] [1] 1 1 policyFlat policyFlat (1/1000) phaseQuarter
        = .ok [Complex.I, 1] ∧
      (idft [Complex.I, 1] 0).im ≠ 0 := by
  constructor
  · have hexp : Complex.exp ((Real.pi : ℂ) / 2 * Complex.I) = Complex.I := by
      rw [show ((Real.pi : ℂ) / 2) = ((Real.pi / 2 : ℝ) : ℂ) by push_cast; ring]
      rw [Complex.exp_mul_I, ← Complex.ofReal_cos, ← Complex.ofReal_sin,
        Real.cos_pi_div_two, Real.sin_pi_div_two]
      simp
    norm_num +decide [spectrumZ, extendPoints, extendLow, extendHigh, argmin, argmax, listMin,
      listMax, sortPoints, List.insertionSort, List.orderedInsert, keyLE, interpAt, linspace,
      nSamples, fullSpec, phaseQuarter, List.range_succ, policyFlat, policyLinear, policyZero,
      hexp]
  · rw [idft_two_zero]
    simp [Complex.ext_iff]

/-! ## C7: interpolated response near the low boundary -/

theorem sorted_perm_cons {l l' : List (ℚ × ℚ)} {a : ℚ × ℚ}
    (hp : l.Perm (a :: l')) (hs : l.Sorted keyLE) (hmin : ∀ c ∈ l', a.1 < c.1) :
    ∃ t, l = a :: t ∧ t.Perm l' ∧ t.Sorted keyLE := by
  cases l with
  | nil =>
    have := hp.length_eq
    simp at this
  | cons c t =>
    have hc : c ∈ a :: l' := hp.mem_iff.1 (List.mem_cons_self c t)
    have hca : c = a := by
      rcases List.mem_cons.1 hc with rfl | hc'
      · rfl
      · exfalso
        have hac : a.1 < c.1 := hmin c hc'
        have ha : a ∈ c :: t := hp.mem_iff.2 (List.mem_cons_self a l')
        rcases List.mem_cons.1 ha with rfl | ha'
        · exact lt_irrefl _ hac
        · have : keyLE c a := (List.rel_of_sorted_cons hs) a ha'
          exact absurd hac (not_lt.2 this)
    subst hca
    exact ⟨t, rfl, hp.cons_inv, hs.of_cons⟩

theorem pair_key_inj {l : List (ℚ × ℚ)} (h : (l.map Prod.fst).Nodup)
    {p q : ℚ × ℚ} (hp : p ∈ l) (hq : q ∈ l) (hk : p.1 = q.1) : p = q := by
  induction l with
  | nil => cases hp
  | cons a t ih =>
    simp only [List.map_cons, List.nodup_cons] at h
    rcases List.mem_cons.1 hp with rfl | hp' <;> rcases List.mem_cons.1 hq with rfl | hq'
    · rfl
    · exact absurd (hk ▸ List.mem_map_of_mem Prod.fst hq') h.1
    · exact absurd (hk ▸ List.mem_map_of_mem Prod.fst hp') h.1
    · exact ih h.2 hp' hq'

/-- The pair `(min(freqs), responses[argmin freqs])` occurs in the zipped
control points. -/
theorem minPair_mem_zip {f r : List ℚ} (hne : f ≠ []) (hlen : r.length = f.length) :
    (listMin f, r.getD (argmin f) 0) ∈ f.zip r := by
  have hi : argmin f < f.length := argmin_lt_length hne
  have hir : argmin f < r.length := by rw [hlen]; exact hi
  have hz : argmin f < (f.zip r).length := by
    rw [List.length_zip]
    omega
  refine List.mem_iff_get.2 ⟨⟨argmin f, hz⟩, ?_⟩
  rw [List.get_zip]
  rw [← List.getD_eq_get, ← List.getD_eq_get, getD_argmin hne]

/-- Shape of a successful high-boundary extension: the input lists followed
by equally many added frequencies/responses, each added frequency strictly
above the current maximum. -/
theorem extendHigh_shape {f1 r1 : List ℚ} {ny : ℚ} {ub : String} {eps : ℚ}
    (hne : f1 ≠ []) (heps : 0 < eps) (hmax : listMax f1 ≤ ny)
    (hub : ub = policyFlat ∨ ub = policyLinear ∨ ub = policyZero) :
    ∃ hf hr : List ℚ, extendHigh f1 r1 ny ub eps = .ok (f1 ++ hf, r1 ++ hr) ∧
      hf.length = hr.length ∧ ∀ k ∈ hf, listMax f1 < k := by
  rcases eq_or_lt_of_le hmax with heq | hlt
  · exact ⟨[], [], by simpa using extendHigh_atNyquist hne heq, rfl, by simp⟩
  · rcases hub with rfl | rfl | rfl
    · refine ⟨[ny], [r1.getD (argmax f1) 0], extendHigh_flat hne hlt, rfl, ?_⟩
      intro k hk
      simp at hk
      subst hk
      exact hlt
    · refine ⟨[ny], [0], extendHigh_linear hne hlt, rfl, ?_⟩
      intro k hk
      simp at hk
      subst hk
      exact hlt
    · refine ⟨[listMax f1 + eps, ny], [0, 0], extendHigh_zero hne hlt, rfl, ?_⟩
      intro k hk
      rcases List.mem_cons.1 hk with rfl | hk'
      · linarith
      · simp at hk'
        subst hk'
        exact hlt

theorem interpAt_head2 (x1 y1 x2 y2 : ℚ) (t : List (ℚ × ℚ)) (x : ℚ) (h : x ≤ x2) :
    interpAt ((x1, y1) :: (x2, y2) :: t) x
      = y1 + (y2 - y1) * (x - x1) / (x2 - x1) := by
  simp [interpAt, h]

theorem sortPoints_two_smallest {P rest : List (ℚ × ℚ)} {a b : ℚ × ℚ}
    (hperm : P.Perm (a :: b :: rest)) (hab : a.1 < b.1)
    (hrest : ∀ c ∈ rest, b.1 < c.1) :
    ∃ t, sortPoints P = a :: b :: t := by
  have hs : (sortPoints P).Sorted keyLE := List.sorted_insertionSort keyLE P
  have hp : (sortPoints P).Perm (a :: b :: rest) :=
    (List.perm_insertionSort keyLE P).trans hperm
  have hminA : ∀ c ∈ b :: rest, a.1 < c.1 := by
    intro c hc
    rcases List.mem_cons.1 hc with rfl | hc'
    · exact hab
    · exact lt_trans hab (hrest c hc')
  obtain ⟨t1, he1, hp1, hs1⟩ := sorted_perm_cons hp hs hminA
  obtain ⟨t2, he2, hp2, hs2⟩ := sorted_perm_cons hp1 hs1 hrest
  exact ⟨t2, by rw [he1, he2]⟩

/-- A list of pairs with distinct keys splits, up to permutation, as any of
its members followed by the rest; when the member has the least key, the rest
have strictly larger keys. -/
theorem perm_cons_of_min_key :
    ∀ (l : List (ℚ × ℚ)) (p : ℚ × ℚ), p ∈ l → (l.map Prod.fst).Nodup →
      (∀ c ∈ l, p.1 ≤ c.1) →
      ∃ others, l.Perm (p :: others) ∧ ∀ c ∈ others, p.1 < c.1 := by
  intro l
  induction l with
  | nil => intro p hp; cases hp
  | cons a t ih =>
    intro p hp hnd hbd
    simp only [List.map_cons, List.nodup_cons] at hnd
    rcases List.mem_cons.1 hp with rfl | hp'
    · refine ⟨t, List.Perm.refl _, ?_⟩
      intro c hc
      rcases eq_or_lt_of_le (hbd c (List.mem_cons_of_mem _ hc)) with heq | hlt
      · exact absurd (heq ▸ List.mem_map_of_mem Prod.fst hc) hnd.1
      · exact hlt
    · obtain ⟨o, ho, hobd⟩ := ih p hp' hnd.2
        (fun c hc => hbd c (List.mem_cons_of_mem _ hc))
      refine ⟨a :: o, ?_, ?_⟩
      · exact ((ho.cons a).trans (List.Perm.swap _ _ _))
      · intro c hc
        rcases List.mem_cons.1 hc with rfl | hc'
        · rcases eq_or_lt_of_le (hbd c (List.mem_cons_self _ _)) with heq | hlt
          · exact absurd (heq ▸ List.mem_map_of_mem Prod.fst hp') hnd.1
          · exact hlt
        · exact hobd c hc'

/-- The zipped control points split as the minimal pair followed by pairs
whose frequencies lie strictly above the minimum (given distinct
frequencies). -/
theorem zip_min_split {f r : List ℚ} (hne : f ≠ []) (hlen : r.length = f.length)
    (hnodup : f.Nodup) :
    ∃ others : List (ℚ × ℚ),
      (f.zip r).Perm ((listMin f, r.getD (argmin f) 0) :: others) ∧
      ∀ c ∈ others, listMin f < c.1 := by
  have hmem := minPair_mem_zip hne hlen
  have hkeys : (f.zip r).map Prod.fst = f := List.map_fst_zip f r (by omega)
  refine perm_cons_of_min_key (f.zip r) _ hmem (by rw [hkeys]; exact hnodup) ?_
  intro c hc
  exact listMin_le (by rw [← hkeys]; exact List.mem_map_of_mem Prod.fst hc)

/-- Sorted control points under flat or linear low-boundary extension: the
inserted `(0, v)` comes first, the minimal original pair second. -/
theorem sortPoints_low_single {f r hf hr : List ℚ} {v : ℚ}
    (hne : f ≠ []) (hlen : r.length = f.length) (hnodup : f.Nodup)
    (hmin : 0 < listMin f) (hhlen : hf.length = hr.length)
    (hhkeys : ∀ k ∈ hf, listMin f < k) :
    ∃ t, sortPoints (((f ++ [0]) ++ hf).zip ((r ++ [v]) ++ hr))
      = (0, v) :: (listMin f, r.getD (argmin f) 0) :: t := by
  obtain ⟨others, hsp, hothers⟩ := zip_min_split hne hlen hnodup
  have hsplit : ((f ++ [0]) ++ hf).zip ((r ++ [v]) ++ hr)
      = (f.zip r ++ [(0, v)]) ++ hf.zip hr := by
    rw [List.zip_append (by simp [hlen]), List.zip_append (by omega)]
    simp
  have hperm : (((f ++ [0]) ++ hf).zip ((r ++ [v]) ++ hr)).Perm
      ((0, v) :: (listMin f, r.getD (argmin f) 0) :: (others ++ hf.zip hr)) := by
    rw [hsplit, List.append_assoc]
    refine List.Perm.trans List.perm_middle ?_
    refine List.Perm.cons _ ?_
    have hbase := List.Perm.append_right (hf.zip hr) hsp
    simpa using hbase
  refine sortPoints_two_smallest hperm hmin ?_
  intro c hc
  show listMin f < c.1
  rcases List.mem_append.1 hc with hcl | hcr
  · exact hothers c hcl
  · exact hhkeys _ (List.of_mem_zip hcr).1

/-- Sorted control points under the zero low-boundary extension: `(0, 0)`
first, `(min - eps, 0)` second. -/
theorem sortPoints_low_zero {f r hf hr : List ℚ} {eps : ℚ}
    (hne : f ≠ []) (hlen : r.length = f.length)
    (hmin : 0 < listMin f) (heps : 0 < eps) (hepslt : eps < listMin f)
    (hhlen : hf.length = hr.length)
    (hhkeys : ∀ k ∈ hf, listMin f < k) :
    ∃ t, sortPoints (((f ++ [listMin f - eps, 0]) ++ hf).zip ((r ++ [0, 0]) ++ hr))
      = (0, 0) :: (listMin f - eps, 0) :: t := by
  have hsplit : ((f ++ [listMin f - eps, 0]) ++ hf).zip ((r ++ [0, 0]) ++ hr)
      = (f.zip r ++ [(listMin f - eps, 0), (0, 0)]) ++ hf.zip hr := by
    rw [List.zip_append (by simp [hlen]), List.zip_append (by omega)]
    simp
  have hperm : (((f ++ [listMin f - eps, 0]) ++ hf).zip ((r ++ [0, 0]) ++ hr)).Perm
      ((0, 0) :: (listMin f - eps, 0) :: (f.zip r ++ hf.zip hr)) := by
    rw [hsplit, List.append_assoc]
    have h1 : (f.zip r ++ ((listMin f - eps, 0) :: (0, 0) :: hf.zip hr)).Perm
        ((listMin f - eps, 0) :: (f.zip r ++ ((0, 0) :: hf.zip hr))) := List.perm_middle
    have h2 : (f.zip r ++ ((0, 0) :: hf.zip hr)).Perm ((0, 0) :: (f.zip r ++ hf.zip hr)) :=
      List.perm_middle
    exact h1.trans ((h2.cons _).trans (List.Perm.swap _ _ _))
  refine sortPoints_two_smallest hperm (by show (0 : ℚ) < listMin f - eps; linarith) ?_
  intro c hc
  show listMin f - eps < c.1
  rcases List.mem_append.1 hc with hcl | hcr
  · have : c.1 ∈ f := (List.of_mem_zip hcl).1
    have := listMin_le this
    linarith
  · have : c.1 ∈ hf := (List.of_mem_zip hcr).1
    have := hhkeys _ this
    linarith

theorem responseAt_eq_of_extends {f r F R : List ℚ} {ny eps x : ℚ} {lb ub : String}
    (hE : extendPoints f r ny lb ub eps = .ok (F, R)) :
    responseAt f r ny lb ub eps x = .ok (interpAt (sortPoints (F.zip R)) x) := by
  unfold responseAt
  rw [hE]

/-- C7: behaviour of the interpolated response on `[0, min(freqs)]` under the
three low-boundary policies, for distinct in-range control frequencies with
`0 < eps < min(freqs)` and nonnegative responses: Zero gives response `0` up
to `min - eps`; Flat holds the response at the minimal frequency; Linear is
`0` at `0` and non-decreasing up to `min(freqs)`. -/
theorem c7_low_boundary_response (f r : List ℚ) (ny eps : ℚ) (ub : String)
    (hne : f ≠ []) (hlen : r.length = f.length) (hnodup : f.Nodup)
    (hmin : 0 < listMin f) (heps : 0 < eps) (hepslt : eps < listMin f)
    (hmax : listMax f ≤ ny)
    (hub : ub = policyFlat ∨ ub = policyLinear ∨ ub = policyZero)
    (hrnn : ∀ y ∈ r, 0 ≤ y) :
    (∀ x : ℚ, 0 ≤ x → x ≤ listMin f - eps →
      responseAt f r ny policyZero ub eps x = .ok 0) ∧
    (∀ x : ℚ, 0 ≤ x → x ≤ listMin f →
      responseAt f r ny policyFlat ub eps x = .ok (r.getD (argmin f) 0)) ∧
    (responseAt f r ny policyLinear ub eps 0 = .ok 0 ∧
      ∀ x1 x2 y1 y2 : ℚ, 0 ≤ x1 → x1 ≤ x2 → x2 ≤ listMin f →
        responseAt f r ny policyLinear ub eps x1 = .ok y1 →
        responseAt f r ny policyLinear ub eps x2 = .ok y2 → y1 ≤ y2) := by
  have hminmax : listMin f ≤ listMax f := listMin_le_listMax hne
  have hmr_mem : r.getD (argmin f) 0 ∈ r := by
    have hir : argmin f < r.length := by
      rw [hlen]; exact argmin_lt_length hne
    rw [List.getD_eq_getElem r 0 hir]
    exact List.getElem_mem hir
  have hmr_nn : 0 ≤ r.getD (argmin f) 0 := hrnn _ hmr_mem
  -- characterization of the linear-policy response on [0, min]
  have hlinear : ∀ x : ℚ, 0 ≤ x → x ≤ listMin f →
      responseAt f r ny policyLinear ub eps x
        = .ok (r.getD (argmin f) 0 * x / listMin f) := by
    intro x hx0 hx
    have hlow := @extendLow_linear f r eps hne hmin
    have hadds : ∀ a ∈ [(0 : ℚ)], a ≤ listMax f := by
      intro a ha
      simp at ha
      subst ha
      linarith
    have hmax1 : listMax (f ++ [0]) = listMax f := listMax_append hne hadds
    have hf1ne : f ++ [(0 : ℚ)] ≠ [] := fun hc => hne (List.append_eq_nil.1 hc).1
    have hup : listMax (f ++ [0]) ≤ ny := by rw [hmax1]; exact hmax
    obtain ⟨hfh, hrh, hhigh, hhlen, hhkeys⟩ :=
      @extendHigh_shape (f ++ [0]) (r ++ [0]) ny ub eps hf1ne heps hup hub
    have hE : extendPoints f r ny policyLinear ub eps
        = .ok ((f ++ [0]) ++ hfh, (r ++ [0]) ++ hrh) := by
      rw [extendPoints_ok hlow]
      exact hhigh
    have hhkeys' : ∀ k ∈ hfh, listMin f < k := by
      intro k hk
      have := hhkeys k hk
      rw [hmax1] at this
      linarith
    obtain ⟨t, hsort⟩ := @sortPoints_low_single f r hfh hrh 0 hne hlen hnodup hmin hhlen hhkeys'
    rw [responseAt_eq_of_extends hE, hsort, interpAt_head2 _ _ _ _ _ _ hx]
    norm_num
  refine ⟨?_, ?_, ?_, ?_⟩
  · -- zero policy
    intro x hx0 hx
    have hlow := @extendLow_zero f r eps hne hmin
    have hadds : ∀ a ∈ [listMin f - eps, (0 : ℚ)], a ≤ listMax f := by
      intro a ha
      rcases List.mem_cons.1 ha with rfl | ha'
      · linarith
      · simp at ha'
        subst ha'
        linarith
    have hmax1 : listMax (f ++ [listMin f - eps, 0]) = listMax f := listMax_append hne hadds
    have hf1ne : f ++ [listMin f - eps, (0 : ℚ)] ≠ [] :=
      fun hc => hne (List.append_eq_nil.1 hc).1
    have hup : listMax (f ++ [listMin f - eps, 0]) ≤ ny := by rw [hmax1]; exact hmax
    obtain ⟨hfh, hrh, hhigh, hhlen, hhkeys⟩ :=
      @extendHigh_shape (f ++ [listMin f - eps, 0]) (r ++ [0, 0]) ny ub eps hf1ne heps hup hub
    have hE : extendPoints f r ny policyZero ub eps
        = .ok ((f ++ [listMin f - eps, 0]) ++ hfh, (r ++ [0, 0]) ++ hrh) := by
      rw [extendPoints_ok hlow]
      exact hhigh
    have hhkeys' : ∀ k ∈ hfh, listMin f < k := by
      intro k hk
      have := hhkeys k hk
      rw [hmax1] at this
      linarith
    obtain ⟨t, hsort⟩ := sortPoints_low_zero hne hlen hmin heps hepslt hhlen hhkeys'
    rw [responseAt_eq_of_extends hE, hsort, interpAt_head2 _ _ _ _ _ _ hx]
    norm_num
  · -- flat policy
    intro x hx0 hx
    have hlow := @extendLow_flat f r eps hne hmin
    have hadds : ∀ a ∈ [(0 : ℚ)], a ≤ listMax f := by
      intro a ha
      simp at ha
      subst ha
      linarith
    have hmax1 : listMax (f ++ [0]) = listMax f := listMax_append hne hadds
    have hf1ne : f ++ [(0 : ℚ)] ≠ [] := fun hc => hne (List.append_eq_nil.1 hc).1
    have hup : listMax (f ++ [0]) ≤ ny := by rw [hmax1]; exact hmax
    obtain ⟨hfh, hrh, hhigh, hhlen, hhkeys⟩ :=
      @extendHigh_shape (f ++ [0]) (r ++ [r.getD (argmin f) 0]) ny ub eps hf1ne heps hup hub
    have hE : extendPoints f r ny policyFlat ub eps
        = .ok ((f ++ [0]) ++ hfh, (r ++ [r.getD (argmin f) 0]) ++ hrh) := by
      rw [extendPoints_ok hlow]
      exact hhigh
    have hhkeys' : ∀ k ∈ hfh, listMin f < k := by
      intro k hk
      have := hhkeys k hk
      rw [hmax1] at this
      linarith
    obtain ⟨t, hsort⟩ := @sortPoints_low_single f r hfh hrh (r.getD (argmin f) 0)
      hne hlen hnodup hmin hhlen hhkeys'
    rw [responseAt_eq_of_extends hE, hsort, interpAt_head2 _ _ _ _ _ _ hx]
    norm_num
  · -- linear policy at 0
    rw [hlinear 0 (le_refl 0) (le_of_lt hmin)]
    norm_num
  · -- linear policy monotone
    intro x1 x2 y1 y2 hx1 hx12 hx2 hy1 hy2
    rw [hlinear x1 hx1 (le_trans hx12 hx2)] at hy1
    rw [hlinear x2 (le_trans hx1 hx12) hx2] at hy2
    injection hy1 with hy1'
    injection hy2 with hy2'
    rw [← hy1', ← hy2']
    gcongr

theorem c7_low_boundary_response_witness :
    responseAt [(2 : ℚ)] [1] 4 policyZero policyLinear 1 1 = .ok 0 ∧
    responseAt [(2 : ℚ)] [1] 4 policyFlat policyLinear 1 2 = .ok 1 ∧
    responseAt [(2 : ℚ)] [1] 4 policyLinear policyLinear 1 0 = .ok 0 := by
  have h := c7_low_boundary_response [(2 : ℚ)] [1] 4 1 policyLinear (by simp) (by simp)
    (by simp) (by norm_num [listMin]) (by norm_num) (by norm_num [listMin])
    (by norm_num [listMax]) (Or.inr (Or.inl rfl))
    (by
      intro y hy
      simp at hy
      subst hy
      norm_num)
  refine ⟨?_, ?_, h.2.2.1⟩
  · exact h.1 1 (by norm_num) (by norm_num [listMin])
  · have := h.2.1 2 (by norm_num) (by norm_num [listMin])
    simpa [argmin] using this
